import Mathlib

/-!
# linesplit (src/xsutillib.c, lines 30-72; the same routine is in src/xsutil.c)

A shallow embedding of the comma/quote tokenizer `linesplit` and the properties
of it that its specification states.

Modelling decisions
* `char *src` is a list of bytes (`Nat`, one per `char`).  The routine only
  compares a byte with `0`, `0x22` and `0x2c`, so the signedness of `char`
  plays no part.  A load at an offset outside the list has no defined value
  and ends the run with `Fault.load`.
* `int` is a 32-bit two's-complement integer: every arithmetic result goes
  through `wrap32`.  The byte offset `ptr = c * 4` therefore stays exact only
  while `c < 2^29`; the pass `c = 2^29` computes a negative offset and faults.
* `tokenStart`, `tokenEnd` are raw `int *`: the routine is never told their
  capacity, so in `linesplit` they are total maps from index to value and
  every store is carried out; the stores (and loads, and loop passes) are
  recorded, in program order, in a trace so that statements about which cells
  are touched can be made.  `linesplitIn cap` is the same routine run on
  arrays of `cap` entries: there a store outside them ends the run with
  `Fault.store`, as a load outside the buffer ends it with `Fault.load`.
* The `for` loop is run with `src_n` passes of fuel, which is always enough:
  `c` goes up by one per pass.

Layout: the embedding and the vocabulary of the specification come first,
then the loop invariant (`Inv`, `pass_inv`, `iterate_inv`) and the
postcondition it yields (`Post`, `linesplit_post`), then the claims.
-/

namespace LineSplit

/-! ## Machine integers -/

/-- Reduction of a mathematical integer to the 32-bit two's-complement `int`. -/
def wrap32 (x : Int) : Int := (x + 2147483648) % 4294967296 - 2147483648

/-! ## Memory effects -/

/-- Events of a run, in program order: the start of a loop pass with counter
`c`, a load `src[off]`, a store `tokenStart[idx] = val`, a store
`tokenEnd[idx] = val`, and the store `*numTokens = val`. -/
inductive Event where
  | iter (c : Int)
  | load (off : Int)
  | storeStart (idx val : Int)
  | storeEnd (idx val : Int)
  | storeNum (val : Int)
  deriving DecidableEq, Repr

/-- Ways in which a run fails to produce a result: a load outside the buffer,
a store outside the caller's output storage (both are undefined behaviour, not
failures reported to the caller), or the loop still running when its fuel is
used up. -/
inductive Fault where
  | load (off : Int)
  | store (idx : Int)
  | fuel
  deriving DecidableEq, Repr

/-- The read `src[off]`. -/
def loadByte (src : List Nat) (off : Int) : Option Nat :=
  if 0 ≤ off then src[off.toNat]? else none

/-- Local variables of `linesplit` together with the caller's output arrays
and the trace of memory effects so far. -/
structure State where
  tokenCnt : Int
  lastTokenStart : Int
  inQuotes : Int
  c : Int
  tokenStart : Int → Int
  tokenEnd : Int → Int
  trace : List Event

/-- Append one event to the trace. -/
def State.log (s : State) (e : Event) : State :=
  { s with trace := s.trace ++ [e] }

/-- Lines 43-45 and the loop initialiser `c = 0`. -/
def init (tokenStart tokenEnd : Int → Int) : State :=
  { tokenCnt := 0, lastTokenStart := 0, inQuotes := 0, c := 0,
    tokenStart := tokenStart, tokenEnd := tokenEnd, trace := [] }

/-- Lines 57-63: the branch taken once `src[ptr] == 0x22` has failed;
`b0` is the value of `src[ptr]`, read a second time. -/
def commaBranch (b0 : Nat) (s : State) : State :=
  if b0 = 0x2c then
    if s.inQuotes ≠ 0 then s
    else
      let s1 := s.log (.storeStart s.tokenCnt s.lastTokenStart)
      let s2 := s1.log (.storeEnd s.tokenCnt s.c)
      { s2 with
        tokenStart := Function.update s.tokenStart s.tokenCnt s.lastTokenStart
        tokenEnd := Function.update s.tokenEnd s.tokenCnt s.c
        lastTokenStart := wrap32 (s.c + 1)
        tokenCnt := wrap32 (s.tokenCnt + 1) }
  else s

/-- Lines 50-63: one pass through the loop body (a `continue` is a return of
the current state). -/
def body (src : List Nat) (s : State) : Except Fault State :=
  let ptr := wrap32 (s.c * 4)
  let o3 := wrap32 (ptr + 3)
  let o2 := wrap32 (ptr + 2)
  let o1 := wrap32 (ptr + 1)
  match loadByte src o3 with
  | none => .error (.load o3)
  | some b3 =>
    let s := s.log (.load o3)
    if b3 ≠ 0 then .ok s
    else
      match loadByte src o2 with
      | none => .error (.load o2)
      | some b2 =>
        let s := s.log (.load o2)
        if b2 ≠ 0 then .ok s
        else
          match loadByte src o1 with
          | none => .error (.load o1)
          | some b1 =>
            let s := s.log (.load o1)
            if b1 ≠ 0 then .ok s
            else
              match loadByte src ptr with
              | none => .error (.load ptr)
              | some b0 =>
                let s := s.log (.load ptr)
                if b0 = 0x22 then
                  .ok { s with inQuotes := Int.xor s.inQuotes 1 }
                else
                  .ok (commaBranch b0 (s.log (.load ptr)))

/-- Line 49: at most `fuel` passes of `for (...; c < src_n; c++)`. -/
def iterate (src : List Nat) (src_n : Int) : Nat → State → Except Fault State
  | 0, s => .ok s
  | fuel + 1, s =>
    if s.c < src_n then
      match body src (s.log (.iter s.c)) with
      | .error e => .error e
      | .ok s1 => iterate src src_n fuel { s1 with c := wrap32 (s1.c + 1) }
    else .ok s

/-- What the caller observes after the call. -/
structure Result where
  tokenStart : Int → Int
  tokenEnd : Int → Int
  numTokens : Int
  ret : Int
  trace : List Event

/-- Lines 66-71: the final token, the count and the return value. -/
def finish (s : State) : Result :=
  let cnt := wrap32 (s.tokenCnt + 1)
  { tokenStart := Function.update s.tokenStart s.tokenCnt s.lastTokenStart
    tokenEnd := Function.update s.tokenEnd s.tokenCnt s.c
    numTokens := cnt
    ret := 0
    trace := s.trace ++ [.storeStart s.tokenCnt s.lastTokenStart,
                         .storeEnd s.tokenCnt s.c, .storeNum cnt] }

/-- The routine `linesplit(src, src_n, tokenStart, tokenEnd, numTokens)`.
The loop is given `src_n` passes of fuel; leaving it with `c < src_n` still
true is reported as `Fault.fuel`. -/
def linesplit (src : List Nat) (src_n : Int) (tokenStart tokenEnd : Int → Int) :
    Except Fault Result :=
  match iterate src src_n src_n.toNat (init tokenStart tokenEnd) with
  | .error e => .error e
  | .ok s => if s.c < src_n then .error .fuel else .ok (finish s)

/-- The token pairs `(tokenStart[k], tokenEnd[k])`, `k < numTokens`, that the
caller reads back. -/
def Result.tokens (r : Result) : List (Int × Int) :=
  (List.range r.numTokens.toNat).map fun (k : Nat) => (r.tokenStart (k : Int), r.tokenEnd (k : Int))

/-! ## The same routine with output storage of a given capacity

`tokenStart` and `tokenEnd` now stand for arrays of `cap` entries each: a
store at an index outside `0 .. cap-1` is outside the caller's storage and
ends the run with `Fault.store`; otherwise the run is the one above. -/

/-- Lines 57-63 with storage of `cap` entries: the stores of lines 59-60 are
at index `tokenCnt`. -/
def commaBranchIn (cap : Nat) (b0 : Nat) (s : State) : Except Fault State :=
  if b0 = 0x2c then
    if s.inQuotes ≠ 0 then .ok s
    else if 0 ≤ s.tokenCnt ∧ s.tokenCnt < (cap : Int) then .ok (commaBranch b0 s)
    else .error (.store s.tokenCnt)
  else .ok s

/-- Lines 50-63 with storage of `cap` entries. -/
def bodyIn (cap : Nat) (src : List Nat) (s : State) : Except Fault State :=
  let ptr := wrap32 (s.c * 4)
  let o3 := wrap32 (ptr + 3)
  let o2 := wrap32 (ptr + 2)
  let o1 := wrap32 (ptr + 1)
  match loadByte src o3 with
  | none => .error (.load o3)
  | some b3 =>
    let s := s.log (.load o3)
    if b3 ≠ 0 then .ok s
    else
      match loadByte src o2 with
      | none => .error (.load o2)
      | some b2 =>
        let s := s.log (.load o2)
        if b2 ≠ 0 then .ok s
        else
          match loadByte src o1 with
          | none => .error (.load o1)
          | some b1 =>
            let s := s.log (.load o1)
            if b1 ≠ 0 then .ok s
            else
              match loadByte src ptr with
              | none => .error (.load ptr)
              | some b0 =>
                let s := s.log (.load ptr)
                if b0 = 0x22 then
                  .ok { s with inQuotes := Int.xor s.inQuotes 1 }
                else
                  commaBranchIn cap b0 (s.log (.load ptr))

/-- Line 49 with storage of `cap` entries. -/
def iterateIn (cap : Nat) (src : List Nat) (src_n : Int) : Nat → State → Except Fault State
  | 0, s => .ok s
  | fuel + 1, s =>
    if s.c < src_n then
      match bodyIn cap src (s.log (.iter s.c)) with
      | .error e => .error e
      | .ok s1 => iterateIn cap src src_n fuel { s1 with c := wrap32 (s1.c + 1) }
    else .ok s

/-- Lines 66-71 with storage of `cap` entries: the stores of lines 66-67 are
at index `tokenCnt`. -/
def finishIn (cap : Nat) (s : State) : Except Fault Result :=
  if 0 ≤ s.tokenCnt ∧ s.tokenCnt < (cap : Int) then .ok (finish s)
  else .error (.store s.tokenCnt)

/-- The routine called with output arrays of `cap` entries each. -/
def linesplitIn (cap : Nat) (src : List Nat) (src_n : Int) (tokenStart tokenEnd : Int → Int) :
    Except Fault Result :=
  match iterateIn cap src src_n src_n.toNat (init tokenStart tokenEnd) with
  | .error e => .error e
  | .ok s => if s.c < src_n then .error .fuel else finishIn cap s

/-! ## Vocabulary of the specification -/

/-- Little-endian encoding of a list of code points as 4-byte units. -/
def encode : List Nat → List Nat
  | [] => []
  | u :: us => [u % 256, u / 256 % 256, u / 65536 % 256, u / 16777216 % 256] ++ encode us

/-- An output array whose cells all hold `v` before the call. -/
def fresh (v : Int) : Int → Int := fun _ => v

/-- The bytes of code unit `i` of the buffer. -/
def unitAt (src : List Nat) (i : Nat) : List Nat := (src.drop (4 * i)).take 4

/-- The unit U+002C, bytes `2C 00 00 00`. -/
def commaUnit : List Nat := [0x2c, 0, 0, 0]

/-- The unit U+0022, bytes `22 00 00 00`. -/
def quoteUnit : List Nat := [0x22, 0, 0, 0]

/-- Unit `i` is a quote unit. -/
def isQuote (src : List Nat) (i : Nat) : Bool := decide (unitAt src i = quoteUnit)

/-- Unit `i` is a comma unit. -/
def isComma (src : List Nat) (i : Nat) : Bool := decide (unitAt src i = commaUnit)

/-- Number of quote units among units `0 .. i-1`. -/
def quotesBefore (src : List Nat) (i : Nat) : Nat := (List.range i).countP (isQuote src)

/-- Unit `i` is a comma unit preceded by an even number of quote units. -/
def isUnquotedComma (src : List Nat) (i : Nat) : Bool :=
  isComma src i && decide (quotesBefore src i % 2 = 0)

/-- Indices, in increasing order, of the unquoted commas among units `0 .. n-1`. -/
def unquotedCommas (src : List Nat) (n : Nat) : List Nat :=
  (List.range n).filter (isUnquotedComma src)

/-- Token starts determined by the delimiter positions `U`. -/
def startsOf (U : List Nat) : List Nat := 0 :: U.map (· + 1)

/-- Token ends determined by the delimiter positions `U` in a buffer of `n` units. -/
def endsOf (U : List Nat) (n : Nat) : List Nat := U ++ [n]

/-- Entry `k` of a list of positions, as the `int` stored in an output cell. -/
def cell (l : List Nat) (k : Nat) : Int := ((l.getD k 0 : Nat) : Int)

/-- Bounds on the events of a run that has scanned `i` units and emitted
`cnt` tokens: loads stay inside the scanned units, stores inside the emitted
cells. -/
def Event.within (i cnt : Int) : Event → Prop
  | .iter c => 0 ≤ c ∧ c < i
  | .load off => 0 ≤ off ∧ off < 4 * i
  | .storeStart idx _ => 0 ≤ idx ∧ idx < cnt
  | .storeEnd idx _ => 0 ≤ idx ∧ idx < cnt
  | .storeNum _ => True

/-- The event marks the start of a loop pass. -/
def Event.isIter : Event → Bool
  | .iter _ => true
  | _ => false

/-- The state of the scan after the first `i` units of `src`, for output
arrays that held `ts`, `te` before the call. -/
structure Inv (src : List Nat) (ts te : Int → Int) (i : Nat) (s : State) : Prop where
  c : s.c = i
  cnt : s.tokenCnt = (unquotedCommas src i).length
  last : s.lastTokenStart =
    cell (startsOf (unquotedCommas src i)) (unquotedCommas src i).length
  inq : s.inQuotes = ((quotesBefore src i % 2 : Nat) : Int)
  starts : ∀ k : Nat, k < (unquotedCommas src i).length →
    s.tokenStart k = cell (startsOf (unquotedCommas src i)) k
  ends : ∀ k : Nat, k < (unquotedCommas src i).length →
    s.tokenEnd k = cell (unquotedCommas src i) k
  frameStart : ∀ j : Int, (j < 0 ∨ ((unquotedCommas src i).length : Int) ≤ j) →
    s.tokenStart j = ts j
  frameEnd : ∀ j : Int, (j < 0 ∨ ((unquotedCommas src i).length : Int) ≤ j) →
    s.tokenEnd j = te j
  passes : s.trace.countP Event.isIter = i
  events : ∀ e ∈ s.trace, e.within i (unquotedCommas src i).length

/-- The token list determined by the delimiter positions `U` in a buffer of
`n` units: starts paired with ends. -/
def tokensOf (U : List Nat) (n : Nat) : List (Int × Int) :=
  ((startsOf U).zip (endsOf U n)).map fun p => ((p.1 : Int), (p.2 : Int))

/-- What the caller observes after a call on the `n` units of `src`, for
output arrays that held `ts`, `te` before the call. -/
structure Post (src : List Nat) (ts te : Int → Int) (n : Nat) (r : Result) : Prop where
  count : r.numTokens = ((unquotedCommas src n).length : Int) + 1
  starts : ∀ k : Nat, k ≤ (unquotedCommas src n).length →
    r.tokenStart k = cell (startsOf (unquotedCommas src n)) k
  ends : ∀ k : Nat, k ≤ (unquotedCommas src n).length →
    r.tokenEnd k = cell (endsOf (unquotedCommas src n) n) k
  frameStart : ∀ j : Int, (j < 0 ∨ ((unquotedCommas src n).length : Int) < j) →
    r.tokenStart j = ts j
  frameEnd : ∀ j : Int, (j < 0 ∨ ((unquotedCommas src n).length : Int) < j) →
    r.tokenEnd j = te j
  ret : r.ret = 0
  passes : r.trace.countP Event.isIter = n
  events : ∀ e ∈ r.trace, e.within n ((unquotedCommas src n).length + 1)

/-- The state a pass over unit `i` leaves behind, given the loads it performed. -/
def passResult (src : List Nat) (i : Nat) (loads : List Event) (s : State) : State :=
  if isQuote src i then
    { s with inQuotes := Int.xor s.inQuotes 1, trace := s.trace ++ loads }
  else if isComma src i ∧ s.inQuotes = 0 then
    { s with
      tokenStart := Function.update s.tokenStart s.tokenCnt s.lastTokenStart
      tokenEnd := Function.update s.tokenEnd s.tokenCnt s.c
      lastTokenStart := wrap32 (s.c + 1)
      tokenCnt := wrap32 (s.tokenCnt + 1)
      trace := s.trace ++ loads ++
        [.storeStart s.tokenCnt s.lastTokenStart, .storeEnd s.tokenCnt s.c] }
  else { s with trace := s.trace ++ loads }

/-- A buffer of `2^29 + 1` units U+0000 (`2^31 + 4` zero bytes). -/
def zeroBuffer : List Nat := List.replicate 2147483652 0

/-- The bytes of the units `[s, e)` of the buffer. -/
def span (src : List Nat) (s e : Int) : List Nat :=
  (src.drop (4 * s.toNat)).take (4 * (e.toNat - s.toNat))

/-- The spans of the tokens, in order, each but the last followed by one comma
unit. -/
def rejoin (src : List Nat) : List (Int × Int) → List Nat
  | [] => []
  | [t] => span src t.1 t.2
  | t :: rest => span src t.1 t.2 ++ commaUnit ++ rejoin src rest

/-- The buffer with the four bytes of unit `i` replaced by `b0 b1 b2 b3`. -/
def setUnit (src : List Nat) (i : Nat) (b0 b1 b2 b3 : Nat) : List Nat :=
  (((src.set (4 * i) b0).set (4 * i + 1) b1).set (4 * i + 2) b2).set (4 * i + 3) b3

/-- A buffer of `2^29 + 1` units: one quote unit followed by `2^29` units
U+0000. -/
def quoteBuffer : List Nat := [0x22, 0, 0, 0] ++ List.replicate 2147483648 0

/-- The tokens the call emits for a buffer: the pairs read back after a run
that returns, none after a run that faults. -/
def emitted (src : List Nat) (src_n : Int) (tokenStart tokenEnd : Int → Int) :
    List (Int × Int) :=
  match linesplit src src_n tokenStart tokenEnd with
  | .ok r => r.tokens
  | .error _ => []

/-- The buffer consisting of `n` comma units. -/
def commas : Nat → List Nat
  | 0 => []
  | n + 1 => commaUnit ++ commas n

/-- The index of a store to `tokenStart`. -/
def Event.startIdx : Event → Option Int
  | .storeStart idx _ => some idx
  | _ => none

/-- The index of a store to `tokenEnd`. -/
def Event.endIdx : Event → Option Int
  | .storeEnd idx _ => some idx
  | _ => none

/-- The value of a store to `*numTokens`. -/
def Event.numVal : Event → Option Int
  | .storeNum v => some v
  | _ => none

/-- The indices `0, 1, .., m-1` as `int`s. -/
def firstIndices (m : Nat) : List Int := (List.range m).map Int.ofNat

/-- The stores performed by the scan of the first `i` units: the cells
`0 .. tokenCnt-1` of `tokenStart` and of `tokenEnd`, each once and in
increasing order, and nothing to `*numTokens` yet. -/
structure StoreInv (src : List Nat) (i : Nat) (s : State) : Prop where
  starts : s.trace.filterMap Event.startIdx = firstIndices (unquotedCommas src i).length
  ends : s.trace.filterMap Event.endIdx = firstIndices (unquotedCommas src i).length
  nums : s.trace.filterMap Event.numVal = []

/-- One past the last delimiter position, or `0` when there is none. -/
def lastStart (U : List Nat) : Int :=
  match U.getLast? with
  | some u => (u : Int) + 1
  | none => 0

/-- The buffer with two quote units inserted before unit `p`. -/
def insertQuotes (src : List Nat) (p : Nat) : List Nat :=
  src.take (4 * p) ++ (quoteUnit ++ (quoteUnit ++ src.drop (4 * p)))

/-- The buffer `A`, one comma unit, then the buffer `B`. -/
def joinComma (A B : List Nat) : List Nat := A ++ (commaUnit ++ B)

/-- A buffer of `m` units U+0000. -/
def zeroUnits (m : Nat) : List Nat := List.replicate (4 * m) 0

/-- Where a delimiter position goes when two units are inserted before unit `p`. -/
def shiftBy2 (p u : Nat) : Nat := if p ≤ u then u + 2 else u

/-! ## Basic facts -/

theorem wrap32_of_range {x : Int} (h1 : -2147483648 ≤ x) (h2 : x < 2147483648) :
    wrap32 x = x := by
  unfold wrap32; omega

theorem wrap32_succ_ofNat {i : Nat} (h : i < 2147483647) :
    wrap32 ((i : Int) + 1) = ((i + 1 : Nat) : Int) := by
  rw [wrap32_of_range] <;> push_cast <;> omega

theorem loadByte_ofNat (src : List Nat) (k : Nat) : loadByte src (k : Int) = src[k]? := by
  simp [loadByte]

theorem take_four_eq {l : List Nat} (h : 4 ≤ l.length) :
    ∃ b0 b1 b2 b3, l[0]? = some b0 ∧ l[1]? = some b1 ∧ l[2]? = some b2 ∧ l[3]? = some b3 ∧
      l.take 4 = [b0, b1, b2, b3] := by
  match l, h with
  | b0 :: b1 :: b2 :: b3 :: _, _ => exact ⟨b0, b1, b2, b3, by simp⟩

/-- The four bytes the loop body loads for unit `i` are the ones `unitAt` names. -/
theorem unit_bytes {src : List Nat} {i : Nat} (h : 4 * (i + 1) ≤ src.length) :
    ∃ b0 b1 b2 b3, src[4 * i]? = some b0 ∧ src[4 * i + 1]? = some b1 ∧
      src[4 * i + 2]? = some b2 ∧ src[4 * i + 3]? = some b3 ∧
      unitAt src i = [b0, b1, b2, b3] := by
  have hl : 4 ≤ (src.drop (4 * i)).length := by simp; omega
  obtain ⟨b0, b1, b2, b3, h0, h1, h2, h3, ht⟩ := take_four_eq hl
  refine ⟨b0, b1, b2, b3, ?_, ?_, ?_, ?_, ht⟩
  · simpa using h0
  · simpa using h1
  · simpa using h2
  · simpa using h3

/-- One pass of the loop body over unit `i` of a buffer that holds it, while the
byte offsets fit an `int`: the pass does not fault, loads only bytes of unit
`i`, and acts according to whether the unit is a quote or a comma. -/
theorem body_spec {src : List Nat} {s : State} {i : Nat} (hc : s.c = i) (hi : i < 536870912)
    (hlen : 4 * (i + 1) ≤ src.length) :
    ∃ loads : List Event,
      (∀ e ∈ loads, ∃ off : Int, e = .load off ∧ 4 * (i : Int) ≤ off ∧ off < 4 * i + 4) ∧
      body src s = .ok (passResult src i loads s) := by
  obtain ⟨b0, b1, b2, b3, h0, h1, h2, h3, hu⟩ := unit_bytes hlen
  have w0 : wrap32 ((i : Int) * 4) = ((4 * i : Nat) : Int) := by
    rw [wrap32_of_range] <;> push_cast <;> omega
  have w1 : wrap32 (((4 * i : Nat) : Int) + 1) = ((4 * i + 1 : Nat) : Int) := by
    rw [wrap32_of_range] <;> push_cast <;> omega
  have w2 : wrap32 (((4 * i : Nat) : Int) + 2) = ((4 * i + 2 : Nat) : Int) := by
    rw [wrap32_of_range] <;> push_cast <;> omega
  have w3 : wrap32 (((4 * i : Nat) : Int) + 3) = ((4 * i + 3 : Nat) : Int) := by
    rw [wrap32_of_range] <;> push_cast <;> omega
  have hq : isQuote src i = decide (b0 = 34 ∧ b1 = 0 ∧ b2 = 0 ∧ b3 = 0) := by
    simp [isQuote, hu, quoteUnit]
  have hk : isComma src i = decide (b0 = 44 ∧ b1 = 0 ∧ b2 = 0 ∧ b3 = 0) := by
    simp [isComma, hu, commaUnit]
  unfold body
  simp only [hc, w0, w1, w2, w3, loadByte_ofNat, h0, h1, h2, h3]
  by_cases e3 : b3 = 0
  swap
  · refine ⟨[.load ((4 * i + 3 : Nat) : Int)], ?_, ?_⟩
    · intro e he; simp at he; exact ⟨_, he, by omega, by omega⟩
    · simp [passResult, hq, hk, e3, State.log]
  by_cases e2 : b2 = 0
  swap
  · refine ⟨[.load ((4 * i + 3 : Nat) : Int), .load ((4 * i + 2 : Nat) : Int)], ?_, ?_⟩
    · intro e he; simp at he
      rcases he with he | he
      · exact ⟨_, he, by omega, by omega⟩
      · exact ⟨_, he, by omega, by omega⟩
    · simp [passResult, hq, hk, e3, e2, State.log]
  by_cases e1 : b1 = 0
  swap
  · refine ⟨[.load ((4 * i + 3 : Nat) : Int), .load ((4 * i + 2 : Nat) : Int),
      .load ((4 * i + 1 : Nat) : Int)], ?_, ?_⟩
    · intro e he; simp at he
      rcases he with he | he | he
      · exact ⟨_, he, by omega, by omega⟩
      · exact ⟨_, he, by omega, by omega⟩
      · exact ⟨_, he, by omega, by omega⟩
    · simp [passResult, hq, hk, e3, e2, e1, State.log]
  by_cases eq : b0 = 34
  · refine ⟨[.load ((4 * i + 3 : Nat) : Int), .load ((4 * i + 2 : Nat) : Int),
      .load ((4 * i + 1 : Nat) : Int), .load ((4 * i : Nat) : Int)], ?_, ?_⟩
    · intro e he; simp at he
      rcases he with he | he | he | he
      · exact ⟨_, he, by omega, by omega⟩
      · exact ⟨_, he, by omega, by omega⟩
      · exact ⟨_, he, by omega, by omega⟩
      · exact ⟨_, he, by omega, by omega⟩
    · simp [passResult, hq, hk, e3, e2, e1, eq, State.log]
  · refine ⟨[.load ((4 * i + 3 : Nat) : Int), .load ((4 * i + 2 : Nat) : Int),
      .load ((4 * i + 1 : Nat) : Int), .load ((4 * i : Nat) : Int),
      .load ((4 * i : Nat) : Int)], ?_, ?_⟩
    · intro e he; simp at he
      rcases he with he | he | he | he
      · exact ⟨_, he, by omega, by omega⟩
      · exact ⟨_, he, by omega, by omega⟩
      · exact ⟨_, he, by omega, by omega⟩
      · exact ⟨_, he, by omega, by omega⟩
    · by_cases ek : b0 = 44
      · by_cases hin : s.inQuotes = 0
        · simp [passResult, hq, hk, e3, e2, e1, eq, ek, hin, State.log, commaBranch, hc]
        · simp [passResult, hq, hk, e3, e2, e1, eq, ek, hin, State.log, commaBranch, hc]
      · simp [passResult, hq, hk, e3, e2, e1, eq, ek, State.log, commaBranch]

/-! ## The specification vocabulary, one unit at a time -/

theorem quotesBefore_succ (src : List Nat) (i : Nat) :
    quotesBefore src (i + 1) = quotesBefore src i + if isQuote src i then 1 else 0 := by
  simp [quotesBefore, List.range_succ, List.countP_append, List.countP_singleton]

theorem unquotedCommas_succ (src : List Nat) (i : Nat) :
    unquotedCommas src (i + 1) =
      unquotedCommas src i ++ if isUnquotedComma src i then [i] else [] := by
  simp only [unquotedCommas, List.range_succ, List.filter_append]
  by_cases h : isUnquotedComma src i <;> simp [h]

theorem length_unquotedCommas_le (src : List Nat) (i : Nat) :
    (unquotedCommas src i).length ≤ i := by
  have := List.length_filter_le (isUnquotedComma src) (List.range i)
  simpa [unquotedCommas] using this

theorem isComma_of_isQuote {src : List Nat} {i : Nat} (h : isQuote src i = true) :
    isComma src i = false := by
  simp only [isQuote, decide_eq_true_eq] at h
  simp [isComma, h, quoteUnit, commaUnit]

theorem length_startsOf (U : List Nat) : (startsOf U).length = U.length + 1 := by
  simp [startsOf]

theorem startsOf_append (U : List Nat) (i : Nat) :
    startsOf (U ++ [i]) = startsOf U ++ [i + 1] := by
  simp [startsOf]

theorem cell_append_left (l l2 : List Nat) {k : Nat} (h : k < l.length) :
    cell (l ++ l2) k = cell l k := by
  unfold cell; rw [List.getD_append _ _ _ _ h]

theorem cell_append_length (l : List Nat) (a : Nat) :
    cell (l ++ [a]) l.length = a := by
  unfold cell; rw [List.getD_append_right _ _ _ _ (le_refl _)]; simp

theorem Event.within_mono {i i2 cnt cnt2 : Int} {e : Event} (h : e.within i cnt)
    (hi : i ≤ i2) (hc : cnt ≤ cnt2) : e.within i2 cnt2 := by
  cases e <;> simp only [Event.within] at h ⊢ <;> omega

theorem xor_parity (q : Nat) :
    Int.xor ((q % 2 : Nat) : Int) 1 = (((q + 1) % 2 : Nat) : Int) := by
  rcases Nat.mod_two_eq_zero_or_one q with h | h
  · have h2 : (q + 1) % 2 = 1 := by omega
    rw [h, h2]; rfl
  · have h2 : (q + 1) % 2 = 0 := by omega
    rw [h, h2]; rfl

/-! ## The loop invariant -/

theorem inv_init (src : List Nat) (ts te : Int → Int) : Inv src ts te 0 (init ts te) := by
  constructor <;> simp [init, unquotedCommas, quotesBefore, cell, startsOf]

/-- One loop pass (body, then `c++`) takes the invariant from `i` to `i + 1`. -/
theorem pass_inv {src : List Nat} {ts te : Int → Int} {i : Nat} {s : State}
    (hinv : Inv src ts te i s) (hi : i < 536870912) (hlen : 4 * (i + 1) ≤ src.length) :
    ∃ s1, body src (s.log (.iter s.c)) = .ok s1 ∧
      Inv src ts te (i + 1) { s1 with c := wrap32 (s1.c + 1) } := by
  have hc0 : (s.log (.iter s.c)).c = i := hinv.c
  obtain ⟨loads, hloads, hbody⟩ := body_spec hc0 hi hlen
  refine ⟨_, hbody, ?_⟩
  have hU := length_unquotedCommas_le src i
  have hi2 : i < 2147483647 := by omega
  have hU2 : (unquotedCommas src i).length < 2147483647 := by omega
  have hcnt : s.tokenCnt = ((unquotedCommas src i).length : Int) := hinv.cnt
  have hev0 : ∀ e ∈ s.trace ++ [Event.iter s.c] ++ loads,
      e.within ((i + 1 : Nat) : Int) ((unquotedCommas src i).length : Int) := by
    intro e he
    rcases List.mem_append.1 he with he | he
    · rcases List.mem_append.1 he with he | he
      · exact Event.within_mono (hinv.events e he) (by push_cast; omega) (le_refl _)
      · simp only [List.mem_singleton] at he
        subst he
        simp only [Event.within, hinv.c]; push_cast; omega
    · obtain ⟨off, rfl, h1, h2⟩ := hloads e he
      simp only [Event.within]; push_cast; omega
  have hpass0 : (s.trace ++ [Event.iter s.c] ++ loads).countP Event.isIter = i + 1 := by
    have hl : loads.countP Event.isIter = 0 := by
      rw [List.countP_eq_zero]
      intro e he
      obtain ⟨off, rfl, -, -⟩ := hloads e he
      simp [Event.isIter]
    simp [List.countP_append, hinv.passes, hl, Event.isIter]
  by_cases hq : isQuote src i = true
  · -- a quote unit: the parity flag flips
    have hk := isComma_of_isQuote hq
    have hU1 : unquotedCommas src (i + 1) = unquotedCommas src i := by
      simp [unquotedCommas_succ, isUnquotedComma, hk]
    have hQ1 : quotesBefore src (i + 1) = quotesBefore src i + 1 := by
      simp [quotesBefore_succ, hq]
    simp only [passResult, hq, if_true]
    constructor
    · simpa [State.log, hinv.c] using wrap32_succ_ofNat hi2
    · simpa [State.log, hU1] using hinv.cnt
    · simpa [State.log, hU1] using hinv.last
    · simp only [State.log, hQ1, hinv.inq]; exact xor_parity _
    · simpa [State.log, hU1] using hinv.starts
    · simpa [State.log, hU1] using hinv.ends
    · simpa [State.log, hU1] using hinv.frameStart
    · simpa [State.log, hU1] using hinv.frameEnd
    · simpa [State.log] using hpass0
    · simpa [State.log, hU1] using hev0
  · have hQ1 : quotesBefore src (i + 1) = quotesBefore src i := by
      simp [quotesBefore_succ, hq]
    by_cases hk : isComma src i = true ∧ (s.log (.iter s.c)).inQuotes = 0
    · -- an unquoted comma: a token is emitted
      have hpar : quotesBefore src i % 2 = 0 := by
        have h2 := hk.2
        simp only [State.log, hinv.inq] at h2
        exact_mod_cast h2
      have hU1 : unquotedCommas src (i + 1) = unquotedCommas src i ++ [i] := by
        simp [unquotedCommas_succ, isUnquotedComma, hk.1, hpar]
      simp only [passResult, hq, hk, and_self, if_true, Bool.false_eq_true, if_false]
      constructor
      · simpa [State.log, hinv.c] using wrap32_succ_ofNat hi2
      · simp only [State.log, hinv.cnt, hU1, List.length_append, List.length_singleton]
        exact wrap32_succ_ofNat hU2
      · simp only [State.log, hinv.c, wrap32_succ_ofNat hi2, hU1, startsOf_append,
          List.length_append, List.length_singleton]
        rw [← length_startsOf, cell_append_length]
      · simp [State.log, hQ1, hpar]
      · intro k hk2
        simp only [hU1, List.length_append, List.length_singleton] at hk2
        simp only [State.log, hinv.last, hU1, startsOf_append]
        rw [hcnt]
        have hlt : k < (startsOf (unquotedCommas src i)).length := by
          rw [length_startsOf]; omega
        rw [cell_append_left _ _ hlt]
        by_cases hkU : k = (unquotedCommas src i).length
        · subst hkU; rw [Function.update_same]
        · have hne : (k : Int) ≠ ((unquotedCommas src i).length : Int) := by
            exact_mod_cast hkU
          rw [Function.update_noteq hne]
          exact hinv.starts k (by omega)
      · intro k hk2
        simp only [hU1, List.length_append, List.length_singleton] at hk2
        simp only [State.log, hinv.c, hU1]
        rw [hcnt]
        by_cases hkU : k = (unquotedCommas src i).length
        · subst hkU; rw [cell_append_length, Function.update_same]
        · have hne : (k : Int) ≠ ((unquotedCommas src i).length : Int) := by
            exact_mod_cast hkU
          have hlt : k < (unquotedCommas src i).length := by omega
          rw [Function.update_noteq hne, cell_append_left _ _ hlt]
          exact hinv.ends k hlt
      · intro j hj
        simp only [hU1, List.length_append, List.length_singleton] at hj
        push_cast at hj
        have hne : j ≠ ((unquotedCommas src i).length : Int) := by omega
        simp only [State.log]
        rw [hcnt, Function.update_noteq hne]
        exact hinv.frameStart j (by omega)
      · intro j hj
        simp only [hU1, List.length_append, List.length_singleton] at hj
        push_cast at hj
        have hne : j ≠ ((unquotedCommas src i).length : Int) := by omega
        simp only [State.log]
        rw [hcnt, Function.update_noteq hne]
        exact hinv.frameEnd j (by omega)
      · simp only [State.log, List.countP_append, List.countP_cons, List.countP_nil,
          Event.isIter] at hpass0 ⊢
        simpa using hpass0
      · intro e he
        simp only [State.log] at he
        rw [hU1]
        have hle : ((unquotedCommas src i).length : Int) ≤
            ((unquotedCommas src i ++ [i]).length : Int) := by simp
        rcases List.mem_append.1 he with he | he
        · exact Event.within_mono (hev0 e he) (le_refl _) hle
        · simp only [List.mem_cons, List.mem_singleton, List.not_mem_nil, or_false] at he
          simp only [List.length_append, List.length_singleton] at hle ⊢
          rcases he with rfl | rfl
          · simp only [Event.within, hcnt]; omega
          · simp only [Event.within, hcnt]; omega
    · -- any other unit: nothing changes
      have hU1 : unquotedCommas src (i + 1) = unquotedCommas src i := by
        have : isUnquotedComma src i = false := by
          by_cases hkc : isComma src i = true
          · have hne : (s.log (.iter s.c)).inQuotes ≠ 0 := fun h => hk ⟨hkc, h⟩
            simp only [State.log, hinv.inq] at hne
            have : quotesBefore src i % 2 ≠ 0 := by exact_mod_cast hne
            simp [isUnquotedComma, this]
          · simp [isUnquotedComma, hkc]
        simp [unquotedCommas_succ, this]
      simp only [passResult, hq, hk, if_false, Bool.false_eq_true]
      constructor
      · simpa [State.log, hinv.c] using wrap32_succ_ofNat hi2
      · simpa [State.log, hU1] using hinv.cnt
      · simpa [State.log, hU1] using hinv.last
      · simpa [State.log, hQ1] using hinv.inq
      · simpa [State.log, hU1] using hinv.starts
      · simpa [State.log, hU1] using hinv.ends
      · simpa [State.log, hU1] using hinv.frameStart
      · simpa [State.log, hU1] using hinv.frameEnd
      · simpa [State.log] using hpass0
      · simpa [State.log, hU1] using hev0

/-- Any number of passes that stays inside the buffer and inside the range of
`int` byte offsets runs without fault and keeps the invariant. -/
theorem iterate_inv {src : List Nat} {src_n : Int} {ts te : Int → Int} :
    ∀ (k i : Nat) (s : State), Inv src ts te i s → ((i + k : Nat) : Int) ≤ src_n →
      i + k ≤ 536870912 → 4 * (i + k) ≤ src.length →
      ∃ s2, iterate src src_n k s = .ok s2 ∧ Inv src ts te (i + k) s2 := by
  intro k
  induction k with
  | zero => intro i s hinv _ _ _; exact ⟨s, rfl, hinv⟩
  | succ k ih =>
    intro i s hinv hn hb hlen
    have hlt : s.c < src_n := by rw [hinv.c]; push_cast at hn ⊢; omega
    obtain ⟨s1, hbody, hinv1⟩ := pass_inv hinv (by omega) (by omega)
    obtain ⟨s2, hit, hinv2⟩ := ih (i + 1) _ hinv1 (by push_cast at hn ⊢; omega)
      (by omega) (by omega)
    refine ⟨s2, ?_, ?_⟩
    · simp only [iterate, hlt, if_true, hbody]; exact hit
    · have e : i + 1 + k = i + (k + 1) := by omega
      rw [← e]; exact hinv2

theorem length_endsOf (U : List Nat) (n : Nat) : (endsOf U n).length = U.length + 1 := by
  simp [endsOf]

/-- Lines 66-71 turn the loop invariant at `c = n` into the postcondition. -/
theorem post_of_inv {src : List Nat} {ts te : Int → Int} {n : Nat} {s : State}
    (hinv : Inv src ts te n s) (hn : n ≤ 536870912) : Post src ts te n (finish s) := by
  have hU := length_unquotedCommas_le src n
  have hU2 : (unquotedCommas src n).length < 2147483647 := by omega
  have hcnt : s.tokenCnt = ((unquotedCommas src n).length : Int) := hinv.cnt
  constructor
  · simp only [finish, hcnt, wrap32_succ_ofNat hU2]; push_cast; rfl
  · intro k hk
    simp only [finish]
    rw [hcnt]
    by_cases hkU : k = (unquotedCommas src n).length
    · subst hkU; rw [Function.update_same]; exact hinv.last
    · have hne : (k : Int) ≠ ((unquotedCommas src n).length : Int) := by
        exact_mod_cast hkU
      rw [Function.update_noteq hne]
      exact hinv.starts k (by omega)
  · intro k hk
    simp only [finish, endsOf]
    rw [hcnt]
    by_cases hkU : k = (unquotedCommas src n).length
    · subst hkU; rw [Function.update_same, cell_append_length]; exact hinv.c
    · have hne : (k : Int) ≠ ((unquotedCommas src n).length : Int) := by
        exact_mod_cast hkU
      have hlt : k < (unquotedCommas src n).length := by omega
      rw [Function.update_noteq hne, cell_append_left _ _ hlt]
      exact hinv.ends k hlt
  · intro j hj
    have hne : j ≠ ((unquotedCommas src n).length : Int) := by omega
    simp only [finish]
    rw [hcnt, Function.update_noteq hne]
    exact hinv.frameStart j (by omega)
  · intro j hj
    have hne : j ≠ ((unquotedCommas src n).length : Int) := by omega
    simp only [finish]
    rw [hcnt, Function.update_noteq hne]
    exact hinv.frameEnd j (by omega)
  · rfl
  · have := hinv.passes
    simp only [finish, List.countP_append, List.countP_cons, List.countP_nil, Event.isIter]
    simpa using this
  · intro e he
    simp only [finish] at he
    rcases List.mem_append.1 he with he | he
    · exact Event.within_mono (hinv.events e he) (le_refl _) (by omega)
    · simp only [List.mem_cons, List.mem_singleton, List.not_mem_nil, or_false] at he
      rcases he with rfl | rfl | rfl
      · simp only [Event.within, hcnt]; omega
      · simp only [Event.within, hcnt]; omega
      · simp only [Event.within]

/-- On a buffer of at least `n ≤ 2^29` units the call returns, and what it
returns satisfies the postcondition. -/
theorem linesplit_post (src : List Nat) (n : Nat) (ts te : Int → Int)
    (hn : n ≤ 536870912) (hlen : 4 * n ≤ src.length) :
    ∃ r, linesplit src (n : Int) ts te = .ok r ∧ Post src ts te n r := by
  obtain ⟨s, hit, hinv⟩ := @iterate_inv src (n : Int) ts te n 0 (init ts te)
    (inv_init src ts te) (by simp) (by omega) (by omega)
  rw [Nat.zero_add] at hinv
  refine ⟨finish s, ?_, post_of_inv hinv hn⟩
  have hc : ¬ s.c < (n : Int) := by rw [hinv.c]; omega
  simp only [linesplit, Int.toNat_ofNat, hit, hc, if_false]

/-! ## Beyond `2^29` units: the byte offset leaves the range of `int` -/

theorem iterate_done {src : List Nat} {src_n : Int} (k : Nat) {s : State}
    (h : ¬ s.c < src_n) : iterate src src_n k s = .ok s := by
  cases k with
  | zero => rfl
  | succ k => simp only [iterate, h, if_false]

theorem iterate_add {src : List Nat} {src_n : Int} (a b : Nat) :
    ∀ s : State, iterate src src_n (a + b) s =
      match iterate src src_n a s with
      | .error e => .error e
      | .ok s1 => iterate src src_n b s1 := by
  induction a with
  | zero => intro s; simp [iterate]
  | succ a ih =>
    intro s
    rw [Nat.succ_add]
    by_cases hlt : s.c < src_n
    · simp only [iterate, hlt, if_true]
      cases hb : body src (s.log (.iter s.c)) with
      | error e => rfl
      | ok s1 => exact ih _
    · simp only [iterate, hlt, if_false]
      exact (iterate_done b hlt).symm

/-- The pass with `c = 2^29` computes `ptr = c * 4`, which wraps to `-2^31`;
the first load of the pass, `src[ptr+3]`, is then at a negative offset. -/
theorem body_overflow (src : List Nat) (s : State) (hc : s.c = 536870912) :
    body src s = .error (.load (-2147483645)) := by
  have e1 : wrap32 (536870912 * 4) = -2147483648 := by decide
  have e2 : wrap32 (-2147483648 + 3) = -2147483645 := by decide
  have e3 : loadByte src (-2147483645) = none := by simp [loadByte]
  unfold body
  simp only [hc, e1, e2, e3]

/-- A call with more than `2^29` units on a buffer that holds the first `2^29`
of them reaches the pass `c = 2^29` and faults there. -/
theorem linesplit_overflow (src : List Nat) (n : Nat) (ts te : Int → Int)
    (hn : 536870912 < n) (hlen : 2147483648 ≤ src.length) :
    linesplit src (n : Int) ts te = .error (.load (-2147483645)) := by
  obtain ⟨m, rfl⟩ : ∃ m, n = 536870912 + (m + 1) := ⟨n - 536870913, by omega⟩
  obtain ⟨s, hit, hinv⟩ := @iterate_inv src ((536870912 + (m + 1) : Nat) : Int) ts te
    536870912 0 (init ts te) (inv_init src ts te) (by push_cast; omega) (by omega) (by omega)
  have hc : s.c = 536870912 := by have := hinv.c; simpa using this
  have hlt : s.c < ((536870912 + (m + 1) : Nat) : Int) := by rw [hc]; push_cast; omega
  have hb := body_overflow src (s.log (.iter s.c)) hc
  have h2 : iterate src ((536870912 + (m + 1) : Nat) : Int) (m + 1) s =
      .error (.load (-2147483645)) := by
    simp only [iterate, hlt, if_true, hb]
  simp only [linesplit, Int.toNat_ofNat, iterate_add, hit, h2]

/-- A pass over a unit that the buffer does not hold in full faults at its
first load, `src[ptr+3]`. -/
theorem body_short {src : List Nat} {s : State} {i : Nat} (hc : s.c = i) (hi : i < 536870912)
    (hlen : src.length < 4 * (i + 1)) :
    body src s = .error (.load ((4 * i + 3 : Nat) : Int)) := by
  have w0 : wrap32 ((i : Int) * 4) = ((4 * i : Nat) : Int) := by
    rw [wrap32_of_range] <;> push_cast <;> omega
  have w3 : wrap32 (((4 * i : Nat) : Int) + 3) = ((4 * i + 3 : Nat) : Int) := by
    rw [wrap32_of_range] <;> push_cast <;> omega
  have hnone : src[4 * i + 3]? = none := List.getElem?_eq_none (by omega)
  unfold body
  simp only [hc, w0, w3, loadByte_ofNat, hnone]

/-- From a state that satisfies the invariant, `k` more passes either all run
and keep the invariant, or end in a fault at a load. -/
theorem iterate_progress {src : List Nat} {n : Nat} {ts te : Int → Int} :
    ∀ (k i : Nat) (s : State), Inv src ts te i s → i + k ≤ n → i ≤ 536870912 →
      (∃ s2, iterate src (n : Int) k s = .ok s2 ∧ Inv src ts te (i + k) s2) ∨
      (∃ off, iterate src (n : Int) k s = .error (.load off)) := by
  intro k
  induction k with
  | zero => intro i s hinv _ _; exact Or.inl ⟨s, rfl, hinv⟩
  | succ k ih =>
    intro i s hinv hn hb
    have hlt : s.c < (n : Int) := by rw [hinv.c]; omega
    have hc : (s.log (.iter s.c)).c = i := hinv.c
    by_cases h29 : i < 536870912
    · by_cases hlen : 4 * (i + 1) ≤ src.length
      · obtain ⟨s1, hbody, hinv1⟩ := pass_inv hinv h29 hlen
        have e : i + 1 + k = i + (k + 1) := by omega
        rcases ih (i + 1) _ hinv1 (by omega) (by omega) with ⟨s2, hit, hinv2⟩ | ⟨off, hit⟩
        · refine Or.inl ⟨s2, ?_, ?_⟩
          · simp only [iterate, hlt, if_true, hbody]; exact hit
          · rw [← e]; exact hinv2
        · refine Or.inr ⟨off, ?_⟩
          simp only [iterate, hlt, if_true, hbody]; exact hit
      · have hshort : src.length < 4 * (i + 1) := by omega
        have hb2 := @body_short src _ i hc h29 hshort
        refine Or.inr ⟨((4 * i + 3 : Nat) : Int), ?_⟩
        simp only [iterate, hlt, if_true, hb2]
    · have hc2 : (s.log (.iter s.c)).c = 536870912 := by
        rw [hc]; have : i = 536870912 := by omega
        rw [this]; rfl
      have hb2 := body_overflow src _ hc2
      refine Or.inr ⟨-2147483645, ?_⟩
      simp only [iterate, hlt, if_true, hb2]

/-- The fuel given to the loop always suffices: no call ends because of it. -/
theorem linesplit_fuel_suffices (src : List Nat) (src_n : Int) (ts te : Int → Int) :
    linesplit src src_n ts te ≠ .error .fuel := by
  by_cases hpos : 0 ≤ src_n
  · obtain ⟨n, rfl⟩ := Int.eq_ofNat_of_zero_le hpos
    rcases @iterate_progress src n ts te n 0 (init ts te) (inv_init src ts te)
      (by omega) (by omega) with ⟨s2, hit, hinv⟩ | ⟨off, hit⟩
    · rw [Nat.zero_add] at hinv
      have hc : ¬ s2.c < (n : Int) := by rw [hinv.c]; omega
      simp only [linesplit, Int.toNat_ofNat, hit, hc, if_false]
      intro h; cases h
    · simp only [linesplit, Int.toNat_ofNat, hit]
      intro h; cases h
  · have h0 : src_n.toNat = 0 := by omega
    have hc : ¬ (init ts te).c < src_n := by simp only [init]; omega
    simp only [linesplit, h0, iterate, hc, if_false]
    intro h; cases h

/-- A call that returns on a buffer holding its `n` units has `n ≤ 2^29`. -/
theorem bound_of_ok {src : List Nat} {n : Nat} {ts te : Int → Int} {r : Result}
    (hlen : 4 * n ≤ src.length) (h : linesplit src (n : Int) ts te = .ok r) :
    n ≤ 536870912 := by
  by_contra hn
  rw [linesplit_overflow src n ts te (by omega) (by omega)] at h
  cases h

/-! ## The order of the stores -/

theorem firstIndices_succ (m : Nat) : firstIndices (m + 1) = firstIndices m ++ [(m : Int)] := by
  simp [firstIndices, List.range_succ]

theorem storeInv_init (src : List Nat) (ts te : Int → Int) : StoreInv src 0 (init ts te) := by
  constructor <;> simp [init, unquotedCommas, firstIndices]

/-- The trace and the token count after a pass, by whether the pass emitted a
token. -/
theorem passResult_emit {src : List Nat} {i : Nat} {loads : List Event} {s : State}
    (h : isQuote src i = false ∧ isComma src i = true ∧ s.inQuotes = 0) :
    (passResult src i loads s).trace = s.trace ++ loads ++
        [.storeStart s.tokenCnt s.lastTokenStart, .storeEnd s.tokenCnt s.c] ∧
      (passResult src i loads s).tokenCnt = wrap32 (s.tokenCnt + 1) := by
  obtain ⟨h1, h2, h3⟩ := h
  simp [passResult, h1, h2, h3]

theorem passResult_skip {src : List Nat} {i : Nat} {loads : List Event} {s : State}
    (h : ¬ (isQuote src i = false ∧ isComma src i = true ∧ s.inQuotes = 0)) :
    (passResult src i loads s).trace = s.trace ++ loads ∧
      (passResult src i loads s).tokenCnt = s.tokenCnt := by
  unfold passResult
  by_cases h1 : isQuote src i = true
  · simp [h1]
  · by_cases h2 : isComma src i = true ∧ s.inQuotes = 0
    · exact absurd ⟨by simpa using h1, h2.1, h2.2⟩ h
    · simp [h1, h2]

/-- One loop pass keeps the record of the stores in step with the tokens
emitted. -/
theorem pass_storeInv {src : List Nat} {ts te : Int → Int} {i : Nat} {s : State}
    (hinv : Inv src ts te i s) (hst : StoreInv src i s) (hi : i < 536870912)
    (hlen : 4 * (i + 1) ≤ src.length) :
    ∃ s1, body src (s.log (.iter s.c)) = .ok s1 ∧
      Inv src ts te (i + 1) { s1 with c := wrap32 (s1.c + 1) } ∧
      StoreInv src (i + 1) { s1 with c := wrap32 (s1.c + 1) } := by
  obtain ⟨s1, hb, hinv1⟩ := pass_inv hinv hi hlen
  refine ⟨s1, hb, hinv1, ?_⟩
  have hc0 : (s.log (.iter s.c)).c = i := hinv.c
  obtain ⟨loads, hloads, hbody⟩ := body_spec hc0 hi hlen
  rw [hb] at hbody
  have hs1 : s1 = passResult src i loads (s.log (.iter s.c)) := by
    injection hbody
  have hU := length_unquotedCommas_le src i
  have hU2 : (unquotedCommas src i).length < 2147483647 := by omega
  have hcnt : (s.log (.iter s.c)).tokenCnt = ((unquotedCommas src i).length : Int) := hinv.cnt
  have hcnt1 : s1.tokenCnt = ((unquotedCommas src (i + 1)).length : Int) := hinv1.cnt
  have htr : (s.log (.iter s.c)).trace = s.trace ++ [.iter s.c] := rfl
  have hl1 : loads.filterMap Event.startIdx = [] := by
    rw [List.filterMap_eq_nil_iff]
    intro e he
    obtain ⟨off, rfl, -, -⟩ := hloads e he
    rfl
  have hl2 : loads.filterMap Event.endIdx = [] := by
    rw [List.filterMap_eq_nil_iff]
    intro e he
    obtain ⟨off, rfl, -, -⟩ := hloads e he
    rfl
  have hl3 : loads.filterMap Event.numVal = [] := by
    rw [List.filterMap_eq_nil_iff]
    intro e he
    obtain ⟨off, rfl, -, -⟩ := hloads e he
    rfl
  by_cases hemit : isQuote src i = false ∧ isComma src i = true ∧
      (s.log (.iter s.c)).inQuotes = 0
  · obtain ⟨e1, e2⟩ := @passResult_emit src i loads _ hemit
    rw [← hs1] at e1 e2
    have hlenU : (unquotedCommas src (i + 1)).length =
        (unquotedCommas src i).length + 1 := by
      rw [e2, hcnt, wrap32_succ_ofNat hU2] at hcnt1; exact_mod_cast hcnt1.symm
    constructor
    · show s1.trace.filterMap Event.startIdx = _
      rw [e1, htr, hlenU, firstIndices_succ, hcnt]
      simp only [List.filterMap_append, hl1, hst.starts]
      simp [Event.startIdx]
    · show s1.trace.filterMap Event.endIdx = _
      rw [e1, htr, hlenU, firstIndices_succ, hcnt]
      simp only [List.filterMap_append, hl2, hst.ends]
      simp [Event.endIdx]
    · show s1.trace.filterMap Event.numVal = _
      rw [e1, htr]
      simp only [List.filterMap_append, hl3, hst.nums]
      simp [Event.numVal]
  · obtain ⟨e1, e2⟩ := @passResult_skip src i loads _ hemit
    rw [← hs1] at e1 e2
    have hlenU : (unquotedCommas src (i + 1)).length = (unquotedCommas src i).length := by
      rw [e2, hcnt] at hcnt1; exact_mod_cast hcnt1.symm
    constructor
    · show s1.trace.filterMap Event.startIdx = _
      rw [e1, htr, hlenU]
      simp only [List.filterMap_append, hl1, hst.starts]
      simp [Event.startIdx]
    · show s1.trace.filterMap Event.endIdx = _
      rw [e1, htr, hlenU]
      simp only [List.filterMap_append, hl2, hst.ends]
      simp [Event.endIdx]
    · show s1.trace.filterMap Event.numVal = _
      rw [e1, htr]
      simp only [List.filterMap_append, hl3, hst.nums]
      simp [Event.numVal]

/-- Any number of passes inside the buffer and inside the range of `int` byte
offsets keeps both invariants. -/
theorem iterate_storeInv {src : List Nat} {src_n : Int} {ts te : Int → Int} :
    ∀ (k i : Nat) (s : State), Inv src ts te i s → StoreInv src i s →
      ((i + k : Nat) : Int) ≤ src_n → i + k ≤ 536870912 → 4 * (i + k) ≤ src.length →
      ∃ s2, iterate src src_n k s = .ok s2 ∧ Inv src ts te (i + k) s2 ∧
        StoreInv src (i + k) s2 := by
  intro k
  induction k with
  | zero => intro i s hinv hst _ _ _; exact ⟨s, rfl, hinv, hst⟩
  | succ k ih =>
    intro i s hinv hst hn hb hlen
    have hlt : s.c < src_n := by rw [hinv.c]; push_cast at hn ⊢; omega
    obtain ⟨s1, hbody, hinv1, hst1⟩ := pass_storeInv hinv hst (by omega) (by omega)
    obtain ⟨s2, hit, hinv2, hst2⟩ := ih (i + 1) _ hinv1 hst1 (by push_cast at hn ⊢; omega)
      (by omega) (by omega)
    have e : i + 1 + k = i + (k + 1) := by omega
    refine ⟨s2, ?_, ?_, ?_⟩
    · simp only [iterate, hlt, if_true, hbody]; exact hit
    · rw [← e]; exact hinv2
    · rw [← e]; exact hst2

/-- On a buffer of at least `n ≤ 2^29` units the call returns `finish s` for a
loop-exit state `s` that satisfies both invariants at `n`. -/
theorem linesplit_run (src : List Nat) (n : Nat) (ts te : Int → Int)
    (hn : n ≤ 536870912) (hlen : 4 * n ≤ src.length) :
    ∃ s, linesplit src (n : Int) ts te = .ok (finish s) ∧ Inv src ts te n s ∧
      StoreInv src n s := by
  obtain ⟨s, hit, hinv, hst⟩ := @iterate_storeInv src (n : Int) ts te n 0 (init ts te)
    (inv_init src ts te) (storeInv_init src ts te) (by simp) (by omega) (by omega)
  rw [Nat.zero_add] at hinv hst
  refine ⟨s, ?_, hinv, hst⟩
  have hc : ¬ s.c < (n : Int) := by rw [hinv.c]; omega
  simp only [linesplit, Int.toNat_ofNat, hit, hc, if_false]

/-! ## Reading the postcondition -/

theorem cell_eq_getElem {l : List Nat} {k : Nat} (h : k < l.length) :
    cell l k = ((l[k] : Nat) : Int) := by
  unfold cell; rw [List.getD_eq_getElem _ _ h]

theorem cell_startsOf_zero (U : List Nat) : cell (startsOf U) 0 = 0 := by
  simp [cell, startsOf]

theorem cell_startsOf_succ {U : List Nat} {k : Nat} (h : k < U.length) :
    cell (startsOf U) (k + 1) = cell U k + 1 := by
  rw [cell_eq_getElem (by rw [length_startsOf]; omega), cell_eq_getElem h]
  simp [startsOf]

theorem cell_endsOf_lt {U : List Nat} (n : Nat) {k : Nat} (h : k < U.length) :
    cell (endsOf U n) k = cell U k := by
  unfold endsOf; exact cell_append_left _ _ h

theorem cell_endsOf_length (U : List Nat) (n : Nat) : cell (endsOf U n) U.length = n := by
  unfold endsOf; exact cell_append_length _ _

theorem mem_unquotedCommas {src : List Nat} {n j : Nat} :
    j ∈ unquotedCommas src n ↔ j < n ∧ isUnquotedComma src j = true := by
  simp [unquotedCommas]

theorem unquotedCommas_sorted (src : List Nat) (n : Nat) :
    (unquotedCommas src n).Pairwise (· < ·) := by
  unfold unquotedCommas
  exact List.Pairwise.filter _ (List.pairwise_lt_range n)

/-- The token pairs read back from the output arrays are the starts paired
with the ends. -/
theorem tokens_of_post {src : List Nat} {ts te : Int → Int} {n : Nat} {r : Result}
    (h : Post src ts te n r) : r.tokens = tokensOf (unquotedCommas src n) n := by
  have hc : r.numTokens.toNat = (unquotedCommas src n).length + 1 := by
    rw [h.count]; omega
  apply List.ext_getElem
  · simp [Result.tokens, tokensOf, hc, length_startsOf, length_endsOf]
  · intro k h1 h2
    have hk : k ≤ (unquotedCommas src n).length := by
      simp [Result.tokens, hc] at h1; omega
    simp only [Result.tokens, tokensOf, List.getElem_map, List.getElem_range,
      List.getElem_zip]
    rw [h.starts k hk, h.ends k hk,
      cell_eq_getElem (by rw [length_startsOf]; omega),
      cell_eq_getElem (by rw [length_endsOf]; omega)]

theorem length_zeroBuffer : zeroBuffer.length = 2147483652 := by
  unfold zeroBuffer; rw [List.length_replicate]

/-- On `2^29 + 1` zero units the run faults in the pass `c = 2^29`. -/
theorem zeroBuffer_fault (ts te : Int → Int) :
    linesplit zeroBuffer 536870913 ts te = .error (.load (-2147483645)) := by
  have h := linesplit_overflow zeroBuffer 536870913 ts te (by omega)
    (by rw [length_zeroBuffer]; omega)
  simpa using h

/-- No delimiter position lies inside a token span. -/
theorem no_delimiter_inside {U : List Nat} (hs : U.Pairwise (· < ·)) (n : Nat) {k j : Nat}
    (hk : k ≤ U.length) (hj : j ∈ U) (h1 : cell (startsOf U) k ≤ (j : Int))
    (h2 : (j : Int) < cell (endsOf U n) k) : False := by
  obtain ⟨m, hm, rfl⟩ := List.mem_iff_getElem.1 hj
  rw [List.pairwise_iff_getElem] at hs
  by_cases hmk : m < k
  · obtain ⟨k1, rfl⟩ : ∃ k1, k = k1 + 1 := ⟨k - 1, by omega⟩
    have hk1 : k1 < U.length := by omega
    rw [cell_startsOf_succ hk1, cell_eq_getElem hk1] at h1
    have hle : U[m] ≤ U[k1] := by
      by_cases e : m = k1
      · subst e; exact le_refl _
      · exact le_of_lt (hs m k1 hm hk1 (by omega))
    omega
  · have hkU : k < U.length := by omega
    rw [cell_endsOf_lt n hkU, cell_eq_getElem hkU] at h2
    have hle : U[k] ≤ U[m] := by
      by_cases e : k = m
      · subst e; exact le_refl _
      · exact le_of_lt (hs k m hkU hm (by omega))
    omega

/-- Every token end is at most `n`. -/
theorem cell_endsOf_le {src : List Nat} {n k : Nat}
    (hk : k ≤ (unquotedCommas src n).length) :
    cell (endsOf (unquotedCommas src n) n) k ≤ (n : Int) := by
  by_cases hkU : k < (unquotedCommas src n).length
  · rw [cell_endsOf_lt n hkU, cell_eq_getElem hkU]
    have hmem : (unquotedCommas src n)[k] ∈ unquotedCommas src n := List.getElem_mem _
    have := (mem_unquotedCommas.1 hmem).1
    omega
  · have e : k = (unquotedCommas src n).length := by omega
    rw [e, cell_endsOf_length]

/-! ## Rejoining the spans -/

theorem rejoin_cons {src : List Nat} (t : Int × Int) {rest : List (Int × Int)}
    (h : rest ≠ []) : rejoin src (t :: rest) = span src t.1 t.2 ++ commaUnit ++ rejoin src rest := by
  cases rest with
  | nil => exact absurd rfl h
  | cons t2 rest2 => rfl

theorem span_ofNat (src : List Nat) (a b : Nat) :
    span src (a : Int) (b : Int) = (src.drop (4 * a)).take (4 * (b - a)) := by
  simp [span]

/-- A span, the delimiter unit after it and the rest of the buffer make up the
buffer from the start of the span on. -/
theorem drop_split {src : List Nat} {a u : Nat} (hau : a ≤ u)
    (hu : unitAt src u = commaUnit) :
    (src.drop (4 * a)).take (4 * (u - a)) ++ commaUnit ++ src.drop (4 * (u + 1)) =
      src.drop (4 * a) := by
  have h1 : src.drop (4 * u) = unitAt src u ++ src.drop (4 * (u + 1)) := by
    have := (List.take_append_drop 4 (src.drop (4 * u))).symm
    rw [List.drop_drop] at this
    have e : 4 * u + 4 = 4 * (u + 1) := by omega
    rw [e] at this
    exact this
  have h2 : src.drop (4 * a) =
      (src.drop (4 * a)).take (4 * (u - a)) ++ src.drop (4 * u) := by
    have := (List.take_append_drop (4 * (u - a)) (src.drop (4 * a))).symm
    rw [List.drop_drop] at this
    have e : 4 * a + 4 * (u - a) = 4 * u := by omega
    rw [e] at this
    exact this
  rw [List.append_assoc, ← hu, ← h1, ← h2]

/-- Rejoining the tokens cut at the delimiter positions `U`, from unit `a` on,
gives back the buffer from unit `a` on. -/
theorem rejoin_from {src : List Nat} {n : Nat} (hlen : src.length = 4 * n) :
    ∀ (U : List Nat) (a : Nat), U.Pairwise (· < ·) →
      (∀ u ∈ U, a ≤ u ∧ u < n ∧ unitAt src u = commaUnit) → a ≤ n →
      rejoin src (((a :: U.map (· + 1)).zip (U ++ [n])).map
        fun p => ((p.1 : Int), (p.2 : Int))) = src.drop (4 * a) := by
  intro U
  induction U with
  | nil =>
    intro a _ _ han
    simp only [List.map_nil, List.nil_append, List.zip_cons_cons, List.zip_nil_right,
      List.map_cons, rejoin, span_ofNat]
    apply List.take_of_length_le
    rw [List.length_drop]; omega
  | cons u U ih =>
    intro a hs hU han
    obtain ⟨hau, hun, hcu⟩ := hU u (List.mem_cons_self _ _)
    rw [List.pairwise_cons] at hs
    have hrest := ih (u + 1) hs.2
      (fun v hv => ⟨hs.1 v hv, (hU v (List.mem_cons_of_mem _ hv)).2⟩) hun
    simp only [List.map_cons, List.cons_append, List.zip_cons_cons]
    rw [rejoin_cons _ (by cases U <;> simp), hrest, span_ofNat]
    exact drop_split hau hcu

theorem unitAt_of_mem_unquotedCommas {src : List Nat} {n u : Nat}
    (h : u ∈ unquotedCommas src n) : unitAt src u = commaUnit := by
  have := (mem_unquotedCommas.1 h).2
  simp only [isUnquotedComma, isComma, Bool.and_eq_true, decide_eq_true_eq] at this
  exact this.1

theorem rejoin_tokensOf {src : List Nat} {n : Nat} (hlen : src.length = 4 * n) :
    rejoin src (tokensOf (unquotedCommas src n) n) = src := by
  have := rejoin_from hlen (unquotedCommas src n) 0 (unquotedCommas_sorted src n)
    (fun u hu => ⟨Nat.zero_le _, (mem_unquotedCommas.1 hu).1,
      unitAt_of_mem_unquotedCommas hu⟩) (Nat.zero_le _)
  simpa [tokensOf, startsOf, endsOf] using this

/-! ## Replacing a unit -/

theorem unitAt_ext {l1 l2 : List Nat} {j1 j2 : Nat}
    (h : ∀ k, k < 4 → l1[4 * j1 + k]? = l2[4 * j2 + k]?) : unitAt l1 j1 = unitAt l2 j2 := by
  unfold unitAt
  apply List.ext_getElem?
  intro k
  by_cases hk : k < 4
  · rw [List.getElem?_take_of_lt hk, List.getElem?_take_of_lt hk, List.getElem?_drop,
      List.getElem?_drop]
    exact h k hk
  · rw [List.getElem?_take_eq_none (by omega), List.getElem?_take_eq_none (by omega)]

theorem length_setUnit (src : List Nat) (i b0 b1 b2 b3 : Nat) :
    (setUnit src i b0 b1 b2 b3).length = src.length := by
  simp [setUnit]

theorem unitAt_setUnit_ne (src : List Nat) {i j : Nat} (b0 b1 b2 b3 : Nat) (h : j ≠ i) :
    unitAt (setUnit src i b0 b1 b2 b3) j = unitAt src j := by
  apply unitAt_ext
  intro k hk
  unfold setUnit
  rw [List.getElem?_set_ne (by omega), List.getElem?_set_ne (by omega),
    List.getElem?_set_ne (by omega), List.getElem?_set_ne (by omega)]

theorem unitAt_setUnit_self {src : List Nat} {i : Nat} (b0 b1 b2 b3 : Nat)
    (h : 4 * (i + 1) ≤ src.length) :
    unitAt (setUnit src i b0 b1 b2 b3) i = [b0, b1, b2, b3] := by
  have hl : 4 * (i + 1) ≤ (setUnit src i b0 b1 b2 b3).length := by
    rw [length_setUnit]; exact h
  obtain ⟨c0, c1, c2, c3, h0, h1, h2, h3, hu⟩ := unit_bytes hl
  have g0 : (setUnit src i b0 b1 b2 b3)[4 * i]? = some b0 := by
    unfold setUnit
    rw [List.getElem?_set_ne (by omega), List.getElem?_set_ne (by omega),
      List.getElem?_set_ne (by omega), List.getElem?_set]
    simp; omega
  have g1 : (setUnit src i b0 b1 b2 b3)[4 * i + 1]? = some b1 := by
    unfold setUnit
    rw [List.getElem?_set_ne (by omega), List.getElem?_set_ne (by omega), List.getElem?_set]
    simp; omega
  have g2 : (setUnit src i b0 b1 b2 b3)[4 * i + 2]? = some b2 := by
    unfold setUnit
    rw [List.getElem?_set_ne (by omega), List.getElem?_set]
    simp; omega
  have g3 : (setUnit src i b0 b1 b2 b3)[4 * i + 3]? = some b3 := by
    unfold setUnit
    rw [List.getElem?_set]
    simp; omega
  rw [h0] at g0; rw [h1] at g1; rw [h2] at g2; rw [h3] at g3
  cases g0; cases g1; cases g2; cases g3
  exact hu

/-- Replacing a unit that has a non-zero upper byte by U+0061 changes no
unit's being a quote or a comma. -/
theorem kinds_setUnit {src : List Nat} {i : Nat} {b0 b1 b2 b3 : Nat}
    (h : 4 * (i + 1) ≤ src.length) (hu : unitAt src i = [b0, b1, b2, b3])
    (hw : b1 ≠ 0 ∨ b2 ≠ 0 ∨ b3 ≠ 0) :
    isQuote (setUnit src i 0x61 0 0 0) = isQuote src ∧
      isComma (setUnit src i 0x61 0 0 0) = isComma src := by
  constructor
  · funext j
    by_cases hj : j = i
    · subst hj
      simp only [isQuote, unitAt_setUnit_self _ _ _ _ h, hu, quoteUnit]
      simp; omega
    · simp only [isQuote, unitAt_setUnit_ne src _ _ _ _ hj]
  · funext j
    by_cases hj : j = i
    · subst hj
      simp only [isComma, unitAt_setUnit_self _ _ _ _ h, hu, commaUnit]
      simp; omega
    · simp only [isComma, unitAt_setUnit_ne src _ _ _ _ hj]

theorem unquotedCommas_setUnit {src : List Nat} {i : Nat} {b0 b1 b2 b3 : Nat}
    (h : 4 * (i + 1) ≤ src.length) (hu : unitAt src i = [b0, b1, b2, b3])
    (hw : b1 ≠ 0 ∨ b2 ≠ 0 ∨ b3 ≠ 0) (n : Nat) :
    unquotedCommas (setUnit src i 0x61 0 0 0) n = unquotedCommas src n := by
  obtain ⟨hq, hk⟩ := kinds_setUnit h hu hw
  have hU : isUnquotedComma (setUnit src i 0x61 0 0 0) = isUnquotedComma src := by
    funext j
    simp only [isUnquotedComma, quotesBefore, hq, hk]
  simp only [unquotedCommas, hU]

theorem length_quoteBuffer : quoteBuffer.length = 2147483652 := by
  unfold quoteBuffer
  rw [List.length_append, List.length_replicate]
  rfl

/-! ## Quotes and parity -/

/-- Over a stretch without quote units the number of quotes seen stays put. -/
theorem quotesBefore_stable {src : List Nat} (m : Nat) :
    ∀ d : Nat, (∀ j, m ≤ j → j < m + d → isQuote src j = false) →
      quotesBefore src (m + d) = quotesBefore src m := by
  intro d
  induction d with
  | zero => intro _; rfl
  | succ d ih =>
    intro h
    have h1 := ih (fun j hj1 hj2 => h j hj1 (by omega))
    have h2 := h (m + d) (by omega) (by omega)
    rw [← Nat.add_assoc, quotesBefore_succ, h1, h2]
    simp

/-- A buffer prefix with at least one quote unit has a last quote unit. -/
theorem exists_last_quote {src : List Nat} :
    ∀ n : Nat, 0 < quotesBefore src n →
      ∃ q, q < n ∧ isQuote src q = true ∧ ∀ j, q < j → j < n → isQuote src j = false := by
  intro n
  induction n with
  | zero => intro h; simp [quotesBefore] at h
  | succ n ih =>
    intro h
    by_cases hq : isQuote src n = true
    · exact ⟨n, by omega, hq, fun j h1 h2 => by omega⟩
    · rw [quotesBefore_succ] at h
      simp only [hq, Bool.false_eq_true, if_false, Nat.add_zero] at h
      obtain ⟨q, hqn, hqq, hlast⟩ := ih h
      refine ⟨q, by omega, hqq, fun j h1 h2 => ?_⟩
      by_cases e : j = n
      · subst e; simpa using hq
      · exact hlast j h1 (by omega)

/-- After the last quote of a buffer with an odd number of quotes no unit is
an unquoted comma. -/
theorem no_unquoted_comma_after_last_quote {src : List Nat} {n q : Nat}
    (hodd : quotesBefore src n % 2 = 1)
    (hlast : ∀ j, q < j → j < n → isQuote src j = false) {j : Nat} (h1 : q < j) (h2 : j < n) :
    isUnquotedComma src j = false := by
  obtain ⟨d, rfl⟩ : ∃ d, n = j + d := ⟨n - j, by omega⟩
  have hst := @quotesBefore_stable src j d (fun i hi1 hi2 => hlast i (by omega) hi2)
  rw [hst] at hodd
  simp [isUnquotedComma, hodd]

theorem isQuote_false_of_first {src : List Nat} {j : Nat} (h : src[4 * j]? ≠ some 0x22) :
    isQuote src j = false := by
  by_contra hq
  have hq2 : unitAt src j = quoteUnit := by simpa [isQuote] using hq
  have h0 : (unitAt src j)[0]? = src[4 * j]? := by
    unfold unitAt
    rw [List.getElem?_take_of_lt (by omega), List.getElem?_drop]
    rfl
  rw [hq2] at h0
  exact h (h0.symm.trans rfl)

theorem isQuote_quoteBuffer_zero : isQuote quoteBuffer 0 = true := by rfl

theorem isQuote_quoteBuffer_pos {j : Nat} (h : 1 ≤ j) : isQuote quoteBuffer j = false := by
  apply isQuote_false_of_first
  unfold quoteBuffer
  rw [List.getElem?_append_right (by simp; omega), List.getElem?_replicate]
  split <;> simp

theorem quotesBefore_quoteBuffer : quotesBefore quoteBuffer 536870913 = 1 := by
  have h := @quotesBefore_stable quoteBuffer 1 536870912
    (fun j h1 _ => isQuote_quoteBuffer_pos h1)
  have h1 : quotesBefore quoteBuffer 1 = 1 := by
    rw [quotesBefore_succ, isQuote_quoteBuffer_zero]
    simp [quotesBefore]
  rw [h1] at h
  exact h

/-! ## An extracted field as a buffer of its own -/

theorem unitAt_sub (src : List Nat) {a b j : Nat} (hj : j < b - a) :
    unitAt ((src.drop (4 * a)).take (4 * (b - a))) j = unitAt src (a + j) := by
  apply unitAt_ext
  intro k hk
  have hlt : 4 * j + k < 4 * (b - a) := by omega
  rw [List.getElem?_take_of_lt hlt, List.getElem?_drop]
  have e : 4 * a + (4 * j + k) = 4 * (a + j) + k := by omega
  rw [e]

theorem quotesBefore_sub (src : List Nat) (a b : Nat) :
    ∀ j, j ≤ b - a →
      quotesBefore ((src.drop (4 * a)).take (4 * (b - a))) j + quotesBefore src a =
        quotesBefore src (a + j) := by
  intro j
  induction j with
  | zero => intro _; simp [quotesBefore]
  | succ j ih =>
    intro hj
    have h1 := ih (by omega)
    have hu := @unitAt_sub src a b j (by omega)
    have hq : isQuote ((src.drop (4 * a)).take (4 * (b - a))) j = isQuote src (a + j) := by
      simp only [isQuote, hu]
    rw [quotesBefore_succ, ← Nat.add_assoc, quotesBefore_succ, hq, ← h1]
    omega

/-- Inside a field that starts where the quote parity is even, a unit is an
unquoted comma of the field exactly when it is one of the whole buffer. -/
theorem isUnquotedComma_sub (src : List Nat) {a b j : Nat} (hj : j < b - a)
    (hpar : quotesBefore src a % 2 = 0) :
    isUnquotedComma ((src.drop (4 * a)).take (4 * (b - a))) j =
      isUnquotedComma src (a + j) := by
  have hu := @unitAt_sub src a b j hj
  have hq := quotesBefore_sub src a b j (by omega)
  have hp : quotesBefore ((src.drop (4 * a)).take (4 * (b - a))) j % 2 =
      quotesBefore src (a + j) % 2 := by omega
  simp only [isUnquotedComma, isComma, hu, hp]

/-- Every token starts where the quote parity is even. -/
theorem parity_at_start (src : List Nat) (n : Nat) {k : Nat}
    (hk : k ≤ (unquotedCommas src n).length) :
    quotesBefore src ((startsOf (unquotedCommas src n)).getD k 0) % 2 = 0 := by
  cases k with
  | zero => simp [startsOf, quotesBefore]
  | succ k =>
    have hkU : k < (unquotedCommas src n).length := by omega
    have hmem : (unquotedCommas src n)[k] ∈ unquotedCommas src n := List.getElem_mem _
    have huc := (mem_unquotedCommas.1 hmem).2
    simp only [isUnquotedComma, Bool.and_eq_true, decide_eq_true_eq] at huc
    have hnq : isQuote src (unquotedCommas src n)[k] = false := by
      by_contra hq
      have := isComma_of_isQuote (by simpa using hq : isQuote src _ = true)
      rw [this] at huc
      exact absurd huc.1 (by simp)
    have e : (startsOf (unquotedCommas src n)).getD (k + 1) 0 =
        (unquotedCommas src n)[k] + 1 := by
      have := cell_startsOf_succ hkU
      rw [cell_eq_getElem hkU] at this
      unfold cell at this
      exact_mod_cast this
    rw [e, quotesBefore_succ, hnq]
    simpa using huc.2

theorem start_le_end (src : List Nat) (n : Nat) {k : Nat}
    (hk : k ≤ (unquotedCommas src n).length) :
    cell (startsOf (unquotedCommas src n)) k ≤ cell (endsOf (unquotedCommas src n) n) k := by
  cases k with
  | zero => rw [cell_startsOf_zero]; unfold cell; omega
  | succ k =>
    have hkU : k < (unquotedCommas src n).length := by omega
    rw [cell_startsOf_succ hkU, cell_eq_getElem hkU]
    by_cases hk2 : k + 1 < (unquotedCommas src n).length
    · rw [cell_endsOf_lt n hk2, cell_eq_getElem hk2]
      have := (List.pairwise_iff_getElem.1 (unquotedCommas_sorted src n)) k (k + 1) hkU hk2
        (by omega)
      omega
    · have e : k + 1 = (unquotedCommas src n).length := by omega
      rw [e, cell_endsOf_length]
      have hmem : (unquotedCommas src n)[k] ∈ unquotedCommas src n := List.getElem_mem _
      have := (mem_unquotedCommas.1 hmem).1
      omega

/-- The units of a token span, taken as a buffer, hold no unquoted comma. -/
theorem unquotedCommas_field (src : List Nat) (n : Nat) {k : Nat}
    (hk : k ≤ (unquotedCommas src n).length) :
    unquotedCommas
      ((src.drop (4 * (startsOf (unquotedCommas src n)).getD k 0)).take
        (4 * ((endsOf (unquotedCommas src n) n).getD k 0 -
          (startsOf (unquotedCommas src n)).getD k 0)))
      ((endsOf (unquotedCommas src n) n).getD k 0 -
        (startsOf (unquotedCommas src n)).getD k 0) = [] := by
  have hpar := parity_at_start src n hk
  have hend := @cell_endsOf_le src n k hk
  apply List.eq_nil_iff_forall_not_mem.2
  intro j hmemj
  obtain ⟨hj, huc⟩ := mem_unquotedCommas.1 hmemj
  rw [isUnquotedComma_sub src hj hpar] at huc
  unfold cell at hend
  have hmem : (startsOf (unquotedCommas src n)).getD k 0 + j ∈ unquotedCommas src n :=
    mem_unquotedCommas.2 ⟨by omega, huc⟩
  exact no_delimiter_inside (unquotedCommas_sorted src n) n hk hmem
    (by unfold cell; omega) (by unfold cell; omega)

/-! ## A buffer of commas -/

theorem length_commas (n : Nat) : (commas n).length = 4 * n := by
  induction n with
  | zero => rfl
  | succ n ih => simp only [commas, List.length_append, ih, commaUnit, List.length_cons,
      List.length_nil]; omega

theorem unitAt_commas : ∀ (n j : Nat), j < n → unitAt (commas n) j = commaUnit := by
  intro n
  induction n with
  | zero => intro j hj; omega
  | succ n ih =>
    intro j hj
    cases j with
    | zero => simp [unitAt, commas, commaUnit]
    | succ j =>
      rw [← ih j (by omega)]
      apply unitAt_ext
      intro k hk
      simp only [commas]
      rw [List.getElem?_append_right (by simp [commaUnit]; omega)]
      have e : 4 * (j + 1) + k - commaUnit.length = 4 * j + k := by
        simp [commaUnit]; omega
      rw [e]

theorem unquotedCommas_commas (n : Nat) : unquotedCommas (commas n) n = List.range n := by
  unfold unquotedCommas
  rw [List.filter_eq_self]
  intro j hj
  rw [List.mem_range] at hj
  have hq : quotesBefore (commas n) j = 0 := by
    have h := @quotesBefore_stable (commas n) 0 j (fun i _ hi => by
      have hu := unitAt_commas n i (by omega)
      simp [isQuote, hu, commaUnit, quoteUnit])
    rw [Nat.zero_add] at h
    rw [h]; simp [quotesBefore]
  simp [isUnquotedComma, isComma, unitAt_commas n j hj, hq]

theorem cell_range {n k : Nat} (h : k < n) : cell (List.range n) k = (k : Int) := by
  rw [cell_eq_getElem (by simpa using h)]
  simp

/-! ## Runs beyond the bound -/

theorem quoteBuffer_fault (ts te : Int → Int) :
    linesplit quoteBuffer 536870913 ts te = .error (.load (-2147483645)) := by
  have h := linesplit_overflow quoteBuffer 536870913 ts te (by omega)
    (by rw [length_quoteBuffer]; omega)
  simpa using h

theorem commas_fault (ts te : Int → Int) :
    linesplit (commas 536870913) 536870913 ts te = .error (.load (-2147483645)) := by
  have h := linesplit_overflow (commas 536870913) 536870913 ts te (by omega)
    (by rw [length_commas]; omega)
  simpa using h

/-! ## The examples of the specification, evaluated -/

/-- Tokens, count and return value of a run, for comparison with expected values. -/
theorem example_abc :
    (linesplit (encode [97, 44, 98, 44, 99]) 5 (fresh 0) (fresh 0)).toOption.map
      (fun r => (r.tokens, r.numTokens, r.ret)) = some ([(0, 1), (2, 3), (4, 5)], 3, 0) := by
  decide

theorem example_quoted_comma :
    (linesplit (encode [34, 97, 44, 98, 34, 44, 99]) 7 (fresh 0) (fresh 0)).toOption.map
      (fun r => (r.tokens, r.numTokens, r.ret)) = some ([(0, 5), (6, 7)], 2, 0) := by
  decide

theorem example_single_comma :
    (linesplit (encode [44]) 1 (fresh 0) (fresh 0)).toOption.map
      (fun r => (r.tokens, r.numTokens, r.ret)) = some ([(0, 0), (1, 1)], 2, 0) := by
  decide

theorem example_unterminated_quote :
    (linesplit (encode [34, 97, 44, 98]) 4 (fresh 0) (fresh 0)).toOption.map
      (fun r => (r.tokens, r.numTokens, r.ret)) = some ([(0, 4)], 1, 0) := by
  decide

theorem example_wide_units :
    (linesplit (encode [0x12c, 0x2022, 44]) 3 (fresh 0) (fresh 0)).toOption.map
      (fun r => (r.tokens, r.numTokens, r.ret)) = some ([(0, 2), (3, 3)], 2, 0) := by
  decide

/-! ## Facts about the result used by the later claims -/

theorem finish_trace (s : State) :
    (finish s).trace = s.trace ++ [.storeStart s.tokenCnt s.lastTokenStart,
      .storeEnd s.tokenCnt s.c, .storeNum (wrap32 (s.tokenCnt + 1))] := rfl

theorem cell_startsOf_length (U : List Nat) : cell (startsOf U) U.length = lastStart U := by
  rcases List.eq_nil_or_concat U with rfl | ⟨V, u, rfl⟩
  · simp [cell, startsOf, lastStart]
  · rw [List.concat_eq_append, startsOf_append, List.length_append, List.length_singleton,
      ← length_startsOf, cell_append_length]
    simp [lastStart, List.getLast?_concat]

theorem startsOf_sorted {U : List Nat} (h : U.Pairwise (· < ·)) :
    (startsOf U).Pairwise (· < ·) := by
  unfold startsOf
  rw [List.pairwise_cons]
  refine ⟨?_, ?_⟩
  · intro a ha
    rw [List.mem_map] at ha
    obtain ⟨u, -, rfl⟩ := ha
    omega
  · exact List.Pairwise.map _ (fun a b hab => by omega) h

/-! ## Buffers that agree unit by unit -/

/-- Buffers with the same first `m` units have the same quotes and the same
unquoted commas among them. -/
theorem agree_upto {X Y : List Nat} :
    ∀ m : Nat, (∀ j, j < m → unitAt X j = unitAt Y j) →
      quotesBefore X m = quotesBefore Y m ∧ unquotedCommas X m = unquotedCommas Y m := by
  intro m
  induction m with
  | zero => intro _; simp [quotesBefore, unquotedCommas]
  | succ m ih =>
    intro h
    obtain ⟨h1, h2⟩ := ih (fun j hj => h j (by omega))
    have hu := h m (by omega)
    have hq : isQuote X m = isQuote Y m := by simp only [isQuote, hu]
    have hk : isUnquotedComma X m = isUnquotedComma Y m := by
      simp only [isUnquotedComma, isComma, hu, h1]
    exact ⟨by rw [quotesBefore_succ, quotesBefore_succ, h1, hq],
      by rw [unquotedCommas_succ, unquotedCommas_succ, h2, hk]⟩

theorem unitAt_self_zero {b0 b1 b2 b3 : Nat} : unitAt [b0, b1, b2, b3] 0 = [b0, b1, b2, b3] := by
  simp [unitAt]

/-! ## Two quote units inserted -/

theorem length_insertQuotes {src : List Nat} {p : Nat} (hp : 4 * p ≤ src.length) :
    (insertQuotes src p).length = src.length + 8 := by
  simp only [insertQuotes, List.length_append, List.length_take, List.length_drop, quoteUnit,
    List.length_cons, List.length_nil]
  omega

theorem unitAt_insertQuotes_before {src : List Nat} {p j : Nat} (hp : 4 * p ≤ src.length)
    (hj : j < p) : unitAt (insertQuotes src p) j = unitAt src j := by
  apply unitAt_ext
  intro k hk
  have hlt : 4 * j + k < (src.take (4 * p)).length := by
    rw [List.length_take]; omega
  unfold insertQuotes
  rw [List.getElem?_append_left hlt, List.getElem?_take_of_lt (by omega)]

theorem unitAt_insertQuotes_first {src : List Nat} {p : Nat} (hp : 4 * p ≤ src.length) :
    unitAt (insertQuotes src p) p = quoteUnit := by
  have h : unitAt (insertQuotes src p) p = unitAt quoteUnit 0 := by
    apply unitAt_ext
    intro k hk
    have hge : (src.take (4 * p)).length ≤ 4 * p + k := by
      rw [List.length_take]; omega
    have e : 4 * p + k - (src.take (4 * p)).length = k := by
      rw [List.length_take]; omega
    unfold insertQuotes
    rw [List.getElem?_append_right hge, e,
      List.getElem?_append_left (by simp [quoteUnit]; omega)]
    simp
  rw [h]; exact unitAt_self_zero

theorem unitAt_insertQuotes_second {src : List Nat} {p : Nat} (hp : 4 * p ≤ src.length) :
    unitAt (insertQuotes src p) (p + 1) = quoteUnit := by
  have h : unitAt (insertQuotes src p) (p + 1) = unitAt quoteUnit 0 := by
    apply unitAt_ext
    intro k hk
    have hge : (src.take (4 * p)).length ≤ 4 * (p + 1) + k := by
      rw [List.length_take]; omega
    have e : 4 * (p + 1) + k - (src.take (4 * p)).length = 4 + k := by
      rw [List.length_take]; omega
    have e2 : 4 + k - quoteUnit.length = k := by simp [quoteUnit]
    unfold insertQuotes
    rw [List.getElem?_append_right hge, e,
      List.getElem?_append_right (by simp [quoteUnit]), e2,
      List.getElem?_append_left (by simp [quoteUnit]; omega)]
    simp
  rw [h]; exact unitAt_self_zero

theorem unitAt_insertQuotes_after {src : List Nat} {p : Nat} (hp : 4 * p ≤ src.length)
    (j : Nat) : unitAt (insertQuotes src p) (p + 2 + j) = unitAt src (p + j) := by
  apply unitAt_ext
  intro k hk
  have hge : (src.take (4 * p)).length ≤ 4 * (p + 2 + j) + k := by
    rw [List.length_take]; omega
  have e : 4 * (p + 2 + j) + k - (src.take (4 * p)).length = 8 + 4 * j + k := by
    rw [List.length_take]; omega
  have e2 : 8 + 4 * j + k - quoteUnit.length = 4 + 4 * j + k := by simp [quoteUnit]; omega
  have e3 : 4 + 4 * j + k - quoteUnit.length = 4 * j + k := by simp [quoteUnit]; omega
  unfold insertQuotes
  rw [List.getElem?_append_right hge, e,
    List.getElem?_append_right (by simp [quoteUnit]; omega), e2,
    List.getElem?_append_right (by simp [quoteUnit]; omega), e3, List.getElem?_drop]
  have e4 : 4 * p + (4 * j + k) = 4 * (p + j) + k := by omega
  rw [e4]

theorem isUnquotedComma_of_isQuote {src : List Nat} {j : Nat} (h : isQuote src j = true) :
    isUnquotedComma src j = false := by
  simp [isUnquotedComma, isComma_of_isQuote h]

theorem map_shiftBy2_below (src : List Nat) (p : Nat) :
    (unquotedCommas src p).map (shiftBy2 p) = unquotedCommas src p := by
  have h : (unquotedCommas src p).map (shiftBy2 p) = (unquotedCommas src p).map id := by
    apply List.map_congr_left
    intro u hu
    have := (mem_unquotedCommas.1 hu).1
    simp only [shiftBy2, id]
    rw [if_neg (by omega)]
  rw [h, List.map_id]

/-- The scan of the buffer with two quotes inserted before unit `p`, past the
inserted pair: two more quotes seen, the same unquoted commas, moved by two
when at or after `p`. -/
theorem scan_insertQuotes {src : List Nat} {p : Nat} (hp : 4 * p ≤ src.length) :
    ∀ d : Nat, quotesBefore (insertQuotes src p) (p + 2 + d) = quotesBefore src (p + d) + 2 ∧
      unquotedCommas (insertQuotes src p) (p + 2 + d) =
        (unquotedCommas src (p + d)).map (shiftBy2 p) := by
  intro d
  induction d with
  | zero =>
    obtain ⟨h1, h2⟩ := @agree_upto (insertQuotes src p) src p
      (fun j hj => unitAt_insertQuotes_before hp hj)
    have hq1 : isQuote (insertQuotes src p) p = true := by
      simp [isQuote, unitAt_insertQuotes_first hp]
    have hq2 : isQuote (insertQuotes src p) (p + 1) = true := by
      simp [isQuote, unitAt_insertQuotes_second hp]
    have b1 : quotesBefore (insertQuotes src p) (p + 1 + 1) = quotesBefore src p + 2 := by
      rw [quotesBefore_succ, quotesBefore_succ, hq1, hq2, h1]
      simp
    have b2 : unquotedCommas (insertQuotes src p) (p + 1 + 1) =
        (unquotedCommas src p).map (shiftBy2 p) := by
      rw [unquotedCommas_succ, unquotedCommas_succ, isUnquotedComma_of_isQuote hq1,
        isUnquotedComma_of_isQuote hq2, h2, map_shiftBy2_below]
      simp
    exact ⟨b1, b2⟩
  | succ d ih =>
    obtain ⟨h1, h2⟩ := ih
    have hu := unitAt_insertQuotes_after hp d
    have hq : isQuote (insertQuotes src p) (p + 2 + d) = isQuote src (p + d) := by
      simp only [isQuote, hu]
    have hpar : quotesBefore (insertQuotes src p) (p + 2 + d) % 2 =
        quotesBefore src (p + d) % 2 := by rw [h1]; omega
    have hk : isUnquotedComma (insertQuotes src p) (p + 2 + d) =
        isUnquotedComma src (p + d) := by
      simp only [isUnquotedComma, isComma, hu, hpar]
    have e1 : p + 2 + (d + 1) = p + 2 + d + 1 := by omega
    have e2 : p + (d + 1) = p + d + 1 := by omega
    rw [e1, e2]
    constructor
    · rw [quotesBefore_succ, quotesBefore_succ, h1, hq]; omega
    · rw [unquotedCommas_succ, unquotedCommas_succ, h2, hk]
      by_cases hc : isUnquotedComma src (p + d) = true
      · have hs : shiftBy2 p (p + d) = p + 2 + d := by
          simp only [shiftBy2]; rw [if_pos (by omega)]; omega
        simp [hc, hs]
      · simp [hc]

theorem cell_map_shiftBy2 {U : List Nat} (p : Nat) {k : Nat} (h : k < U.length) :
    cell (U.map (shiftBy2 p)) k = ((shiftBy2 p U[k] : Nat) : Int) := by
  rw [cell_eq_getElem (by simpa using h)]
  simp

theorem cell_startsOf_shift (U : List Nat) (p : Nat) {k : Nat} (hk : k ≤ U.length) :
    cell (startsOf (U.map (shiftBy2 p))) k =
      if (p : Int) < cell (startsOf U) k then cell (startsOf U) k + 2
      else cell (startsOf U) k := by
  cases k with
  | zero =>
    rw [cell_startsOf_zero, cell_startsOf_zero, if_neg (by omega)]
  | succ k =>
    have h1 : k < U.length := by omega
    have h2 : k < (U.map (shiftBy2 p)).length := by rw [List.length_map]; exact h1
    rw [cell_startsOf_succ h2, cell_startsOf_succ h1, cell_map_shiftBy2 p h1,
      cell_eq_getElem h1]
    unfold shiftBy2
    by_cases hc : p ≤ U[k]
    · rw [if_pos hc, if_pos (by omega)]; push_cast; omega
    · rw [if_neg hc, if_neg (by omega)]

theorem cell_endsOf_shift (U : List Nat) {p n : Nat} (hp : p ≤ n) {k : Nat}
    (hk : k ≤ U.length) :
    cell (endsOf (U.map (shiftBy2 p)) (n + 2)) k =
      if (p : Int) ≤ cell (endsOf U n) k then cell (endsOf U n) k + 2
      else cell (endsOf U n) k := by
  by_cases h1 : k < U.length
  · have h2 : k < (U.map (shiftBy2 p)).length := by rw [List.length_map]; exact h1
    rw [cell_endsOf_lt _ h2, cell_endsOf_lt _ h1, cell_map_shiftBy2 p h1, cell_eq_getElem h1]
    unfold shiftBy2
    by_cases hc : p ≤ U[k]
    · rw [if_pos hc, if_pos (by omega)]; push_cast; omega
    · rw [if_neg hc, if_neg (by omega)]
  · have e : k = U.length := by omega
    have e2 : k = (U.map (shiftBy2 p)).length := by rw [List.length_map]; exact e
    have c1 : cell (endsOf (U.map (shiftBy2 p)) (n + 2)) k = ((n + 2 : Nat) : Int) := by
      rw [e2]; exact cell_endsOf_length _ _
    have c2 : cell (endsOf U n) k = (n : Int) := by
      rw [e]; exact cell_endsOf_length _ _
    rw [c1, c2, if_pos (by omega)]
    push_cast; rfl

theorem unquotedCommas_insertQuotes {src : List Nat} {n p : Nat} (hlen : src.length = 4 * n)
    (hp : p ≤ n) :
    unquotedCommas (insertQuotes src p) (n + 2) = (unquotedCommas src n).map (shiftBy2 p) := by
  have h := (scan_insertQuotes (by omega : 4 * p ≤ src.length) (n - p)).2
  have e1 : p + 2 + (n - p) = n + 2 := by omega
  have e2 : p + (n - p) = n := by omega
  rw [e1, e2] at h
  exact h

/-! ## Buffers of zero units -/

theorem length_zeroUnits (m : Nat) : (zeroUnits m).length = 4 * m := by
  unfold zeroUnits; rw [List.length_replicate]

theorem isComma_false_of_first {src : List Nat} {j : Nat} (h : src[4 * j]? ≠ some 0x2c) :
    isComma src j = false := by
  by_contra hq
  have hq2 : unitAt src j = commaUnit := by simpa [isComma] using hq
  have h0 : (unitAt src j)[0]? = src[4 * j]? := by
    unfold unitAt
    rw [List.getElem?_take_of_lt (by omega), List.getElem?_drop]
    rfl
  rw [hq2] at h0
  exact h (h0.symm.trans rfl)

theorem unquotedCommas_zeroUnits (m n : Nat) : unquotedCommas (zeroUnits m) n = [] := by
  apply List.eq_nil_iff_forall_not_mem.2
  intro j hj
  have huc := (mem_unquotedCommas.1 hj).2
  have hk : isComma (zeroUnits m) j = false := by
    apply isComma_false_of_first
    unfold zeroUnits
    rw [List.getElem?_replicate]
    split <;> simp
  simp [isUnquotedComma, hk] at huc

/-! ## Two buffers joined by a comma -/

theorem length_joinComma (A B : List Nat) :
    (joinComma A B).length = A.length + 4 + B.length := by
  simp only [joinComma, List.length_append, commaUnit, List.length_cons, List.length_nil]
  omega

theorem unitAt_joinComma_left {A B : List Nat} {a j : Nat} (hA : A.length = 4 * a)
    (hj : j < a) : unitAt (joinComma A B) j = unitAt A j := by
  apply unitAt_ext
  intro k hk
  unfold joinComma
  rw [List.getElem?_append_left (by omega)]

theorem unitAt_joinComma_mid {A B : List Nat} {a : Nat} (hA : A.length = 4 * a) :
    unitAt (joinComma A B) a = commaUnit := by
  have h : unitAt (joinComma A B) a = unitAt commaUnit 0 := by
    apply unitAt_ext
    intro k hk
    have e : 4 * a + k - A.length = k := by omega
    unfold joinComma
    rw [List.getElem?_append_right (by omega), e,
      List.getElem?_append_left (by simp [commaUnit]; omega)]
    simp
  rw [h]; exact unitAt_self_zero

theorem unitAt_joinComma_right {A B : List Nat} {a : Nat} (hA : A.length = 4 * a) (j : Nat) :
    unitAt (joinComma A B) (a + 1 + j) = unitAt B j := by
  apply unitAt_ext
  intro k hk
  have e : 4 * (a + 1 + j) + k - A.length = 4 + 4 * j + k := by omega
  have e2 : 4 + 4 * j + k - commaUnit.length = 4 * j + k := by simp [commaUnit]; omega
  unfold joinComma
  rw [List.getElem?_append_right (by omega), e,
    List.getElem?_append_right (by simp [commaUnit]; omega), e2]

/-- The scan of `A , B` past the joining comma, when `A` has an even number of
quotes: the quotes of `A` and of `B`, and the unquoted commas of `A`, the
joining comma, and those of `B` moved by `|A| + 1`. -/
theorem scan_joinComma {A B : List Nat} {a : Nat} (hA : A.length = 4 * a)
    (hpar : quotesBefore A a % 2 = 0) :
    ∀ d : Nat,
      quotesBefore (joinComma A B) (a + 1 + d) = quotesBefore A a + quotesBefore B d ∧
      unquotedCommas (joinComma A B) (a + 1 + d) =
        unquotedCommas A a ++ [a] ++ (unquotedCommas B d).map (· + (a + 1)) := by
  intro d
  induction d with
  | zero =>
    obtain ⟨h1, h2⟩ := @agree_upto (joinComma A B) A a
      (fun j hj => unitAt_joinComma_left hA hj)
    have hu := @unitAt_joinComma_mid A B a hA
    have hq : isQuote (joinComma A B) a = false := by
      simp [isQuote, hu, commaUnit, quoteUnit]
    have hk : isUnquotedComma (joinComma A B) a = true := by
      simp [isUnquotedComma, isComma, hu, h1, hpar]
    have b1 : quotesBefore (joinComma A B) (a + 1) = quotesBefore A a + quotesBefore B 0 := by
      rw [quotesBefore_succ, hq, h1]
      simp [quotesBefore]
    have b2 : unquotedCommas (joinComma A B) (a + 1) =
        unquotedCommas A a ++ [a] ++ (unquotedCommas B 0).map (· + (a + 1)) := by
      rw [unquotedCommas_succ, hk, h2]
      simp [unquotedCommas]
    exact ⟨b1, b2⟩
  | succ d ih =>
    obtain ⟨h1, h2⟩ := ih
    have hu := @unitAt_joinComma_right A B a hA d
    have hq : isQuote (joinComma A B) (a + 1 + d) = isQuote B d := by
      simp only [isQuote, hu]
    have hp2 : quotesBefore (joinComma A B) (a + 1 + d) % 2 = quotesBefore B d % 2 := by
      rw [h1]; omega
    have hk : isUnquotedComma (joinComma A B) (a + 1 + d) = isUnquotedComma B d := by
      simp only [isUnquotedComma, isComma, hu, hp2]
    have e1 : a + 1 + (d + 1) = a + 1 + d + 1 := by omega
    rw [e1]
    constructor
    · rw [quotesBefore_succ, quotesBefore_succ, h1, hq]; omega
    · rw [unquotedCommas_succ, unquotedCommas_succ, h2, hk]
      by_cases hc : isUnquotedComma B d = true
      · have e : d + (a + 1) = a + 1 + d := by omega
        simp [hc, e]
      · simp [hc]

/-- The tokens cut at the delimiters of `A`, the joining comma and the moved
delimiters of `B` are the tokens of `A` followed by the moved tokens of `B`. -/
theorem tokensOf_join (UA UB : List Nat) (a b : Nat) :
    tokensOf (UA ++ [a] ++ UB.map (· + (a + 1))) (a + b + 1) =
      tokensOf UA a ++
        (tokensOf UB b).map fun t => (t.1 + ((a : Int) + 1), t.2 + ((a : Int) + 1)) := by
  have hs : startsOf (UA ++ [a] ++ UB.map (· + (a + 1))) =
      startsOf UA ++ (startsOf UB).map (· + (a + 1)) := by
    simp [startsOf, Nat.add_right_comm]
    intro _ _; omega
  have he : endsOf (UA ++ [a] ++ UB.map (· + (a + 1))) (a + b + 1) =
      endsOf UA a ++ (endsOf UB b).map (· + (a + 1)) := by
    simp [endsOf]; omega
  have hl : (startsOf UA).length = (endsOf UA a).length := by
    rw [length_startsOf, length_endsOf]
  unfold tokensOf
  rw [hs, he, List.zip_append hl, List.map_append, List.zip_map, List.map_map, List.map_map]
  congr 1

/-! ## Output storage of a given capacity -/

/-- A pass run with storage of `cap` entries is the pass run with unlimited
storage, unless it emits a token at an index outside the storage: then it
faults at the store `tokenStart[tokenCnt]`. -/
theorem bodyIn_spec {src : List Nat} {s : State} {i : Nat} (cap : Nat) (hc : s.c = i)
    (hi : i < 536870912) (hlen : 4 * (i + 1) ≤ src.length) :
    bodyIn cap src s =
      if (isQuote src i = false ∧ isComma src i = true ∧ s.inQuotes = 0) ∧
          ¬ (0 ≤ s.tokenCnt ∧ s.tokenCnt < (cap : Int)) then
        .error (.store s.tokenCnt)
      else body src s := by
  obtain ⟨b0, b1, b2, b3, h0, h1, h2, h3, hu⟩ := unit_bytes hlen
  have w0 : wrap32 ((i : Int) * 4) = ((4 * i : Nat) : Int) := by
    rw [wrap32_of_range] <;> push_cast <;> omega
  have w1 : wrap32 (((4 * i : Nat) : Int) + 1) = ((4 * i + 1 : Nat) : Int) := by
    rw [wrap32_of_range] <;> push_cast <;> omega
  have w2 : wrap32 (((4 * i : Nat) : Int) + 2) = ((4 * i + 2 : Nat) : Int) := by
    rw [wrap32_of_range] <;> push_cast <;> omega
  have w3 : wrap32 (((4 * i : Nat) : Int) + 3) = ((4 * i + 3 : Nat) : Int) := by
    rw [wrap32_of_range] <;> push_cast <;> omega
  have hq : isQuote src i = decide (b0 = 34 ∧ b1 = 0 ∧ b2 = 0 ∧ b3 = 0) := by
    simp [isQuote, hu, quoteUnit]
  have hk : isComma src i = decide (b0 = 44 ∧ b1 = 0 ∧ b2 = 0 ∧ b3 = 0) := by
    simp [isComma, hu, commaUnit]
  unfold bodyIn body
  simp only [hc, w0, w1, w2, w3, loadByte_ofNat, h0, h1, h2, h3, hq, hk]
  by_cases e3 : b3 = 0
  swap
  · simp [e3]
  by_cases e2 : b2 = 0
  swap
  · simp [e3, e2]
  by_cases e1 : b1 = 0
  swap
  · simp [e3, e2, e1]
  by_cases eq : b0 = 34
  · simp [e3, e2, e1, eq]
  by_cases ek : b0 = 44
  swap
  · simp [e3, e2, e1, eq, ek, commaBranchIn, commaBranch]
  by_cases hin : s.inQuotes = 0
  swap
  · simp [e3, e2, e1, ek, hin, commaBranchIn, commaBranch, State.log]
  by_cases hroom : 0 ≤ s.tokenCnt ∧ s.tokenCnt < (cap : Int)
  · simp [e3, e2, e1, ek, hin, hroom, commaBranchIn, State.log]
  · simp [e3, e2, e1, ek, hin, hroom, commaBranchIn, State.log]

theorem length_unquotedCommas_mono (src : List Nat) (i : Nat) :
    ∀ d : Nat, (unquotedCommas src i).length ≤ (unquotedCommas src (i + d)).length := by
  intro d
  induction d with
  | zero => exact le_refl _
  | succ d ih =>
    rw [← Nat.add_assoc, unquotedCommas_succ, List.length_append]
    omega

/-- Passes run with storage of `cap` entries, from a state that has emitted at
most `cap` tokens: either they emit at most `cap` tokens in all and run as with
unlimited storage, or they emit more and the run faults at the store to index
`cap`. -/
theorem iterateIn_spec {src : List Nat} {src_n : Int} {ts te : Int → Int} (cap : Nat) :
    ∀ (k i : Nat) (s : State), Inv src ts te i s → (unquotedCommas src i).length ≤ cap →
      ((i + k : Nat) : Int) ≤ src_n → i + k ≤ 536870912 → 4 * (i + k) ≤ src.length →
      ((unquotedCommas src (i + k)).length ≤ cap ∧
        iterateIn cap src src_n k s = iterate src src_n k s) ∨
      (cap < (unquotedCommas src (i + k)).length ∧
        iterateIn cap src src_n k s = .error (.store (cap : Int))) := by
  intro k
  induction k with
  | zero => intro i s _ hcap _ _ _; exact Or.inl ⟨hcap, rfl⟩
  | succ k ih =>
    intro i s hinv hcap hn hb hlen
    have hlt : s.c < src_n := by rw [hinv.c]; push_cast at hn ⊢; omega
    have hi : i < 536870912 := by omega
    have hl1 : 4 * (i + 1) ≤ src.length := by omega
    obtain ⟨s1, hbody, hinv1⟩ := pass_inv hinv hi hl1
    have hc0 : (s.log (.iter s.c)).c = i := hinv.c
    obtain ⟨loads, -, hbody2⟩ := body_spec hc0 hi hl1
    rw [hbody] at hbody2
    have hs1 : s1 = passResult src i loads (s.log (.iter s.c)) := by
      injection hbody2
    have hU := length_unquotedCommas_le src i
    have hU2 : (unquotedCommas src i).length < 2147483647 := by omega
    have hcnt : (s.log (.iter s.c)).tokenCnt = ((unquotedCommas src i).length : Int) :=
      hinv.cnt
    have hcnt1 : s1.tokenCnt = ((unquotedCommas src (i + 1)).length : Int) := hinv1.cnt
    have hin := bodyIn_spec cap hc0 hi hl1
    have e : i + 1 + k = i + (k + 1) := by omega
    have hrest := ih (i + 1) { s1 with c := wrap32 (s1.c + 1) } hinv1
    rw [e] at hrest
    have hmono := length_unquotedCommas_mono src (i + 1) k
    rw [e] at hmono
    by_cases hemit : isQuote src i = false ∧ isComma src i = true ∧
        (s.log (.iter s.c)).inQuotes = 0
    · have e2 := (@passResult_emit src i loads _ hemit).2
      rw [← hs1] at e2
      have hlenU : (unquotedCommas src (i + 1)).length =
          (unquotedCommas src i).length + 1 := by
        rw [e2, hcnt, wrap32_succ_ofNat hU2] at hcnt1; exact_mod_cast hcnt1.symm
      by_cases hroom : (unquotedCommas src i).length < cap
      · have hb2 : bodyIn cap src (s.log (.iter s.c)) = .ok s1 := by
          rw [hin, if_neg (by rw [hcnt]; omega), hbody]
        rcases hrest (by omega) (by push_cast at hn ⊢; omega) (by omega) (by omega) with
          ⟨h1, h2⟩ | ⟨h1, h2⟩
        · refine Or.inl ⟨h1, ?_⟩
          simp only [iterateIn, iterate, hlt, if_true, hb2, hbody]
          exact h2
        · refine Or.inr ⟨h1, ?_⟩
          simp only [iterateIn, hlt, if_true, hb2]
          exact h2
      · have hfull : (unquotedCommas src i).length = cap := by omega
        have hb2 : bodyIn cap src (s.log (.iter s.c)) = .error (.store (cap : Int)) := by
          rw [hin, if_pos ⟨hemit, by rw [hcnt]; omega⟩, hcnt, hfull]
        refine Or.inr ⟨by omega, ?_⟩
        simp only [iterateIn, hlt, if_true, hb2]
    · have e2 := (@passResult_skip src i loads _ hemit).2
      rw [← hs1] at e2
      have hlenU : (unquotedCommas src (i + 1)).length = (unquotedCommas src i).length := by
        rw [e2, hcnt] at hcnt1; exact_mod_cast hcnt1.symm
      have hb2 : bodyIn cap src (s.log (.iter s.c)) = .ok s1 := by
        rw [hin, if_neg (fun h => hemit h.1), hbody]
      rcases hrest (by omega) (by push_cast at hn ⊢; omega) (by omega) (by omega) with
        ⟨h1, h2⟩ | ⟨h1, h2⟩
      · refine Or.inl ⟨h1, ?_⟩
        simp only [iterateIn, iterate, hlt, if_true, hb2, hbody]
        exact h2
      · refine Or.inr ⟨h1, ?_⟩
        simp only [iterateIn, hlt, if_true, hb2]
        exact h2

/-- The call with storage of `cap` entries, on a buffer of at least `n ≤ 2^29`
units: with room for every token it is the call with unlimited storage; with
less room it faults at the store to index `cap`. -/
theorem linesplitIn_spec (cap : Nat) (src : List Nat) (n : Nat) (ts te : Int → Int)
    (hn : n ≤ 536870912) (hlen : 4 * n ≤ src.length) :
    ((unquotedCommas src n).length + 1 ≤ cap →
      linesplitIn cap src (n : Int) ts te = linesplit src (n : Int) ts te) ∧
    (cap < (unquotedCommas src n).length + 1 →
      linesplitIn cap src (n : Int) ts te = .error (.store (cap : Int))) := by
  obtain ⟨s, hit, hinv⟩ := @iterate_inv src (n : Int) ts te n 0 (init ts te)
    (inv_init src ts te) (by simp) (by omega) (by omega)
  have hsp := @iterateIn_spec src (n : Int) ts te cap n 0 (init ts te) (inv_init src ts te)
    (by simp [unquotedCommas]) (by simp) (by omega) (by omega)
  rw [Nat.zero_add] at hinv hsp
  have hc : ¬ s.c < (n : Int) := by rw [hinv.c]; omega
  have hcnt : s.tokenCnt = ((unquotedCommas src n).length : Int) := hinv.cnt
  have hls : linesplit src (n : Int) ts te = .ok (finish s) := by
    simp only [linesplit, Int.toNat_ofNat, hit, hc, if_false]
  constructor
  · intro hroom
    rcases hsp with ⟨-, h2⟩ | ⟨h1, -⟩
    · rw [hls]
      simp only [linesplitIn, Int.toNat_ofNat, h2, hit, hc, if_false, finishIn]
      rw [if_pos (by rw [hcnt]; omega)]
    · omega
  · intro hfull
    rcases hsp with ⟨h1, h2⟩ | ⟨-, h2⟩
    · have heq : (unquotedCommas src n).length = cap := by omega
      simp only [linesplitIn, Int.toNat_ofNat, h2, hit, hc, if_false, finishIn]
      rw [if_neg (by rw [hcnt]; omega), hcnt, heq]
    · simp only [linesplitIn, Int.toNat_ofNat, h2]

/-! ## The claims -/

/-- C1 (amended). For every length `n` with `0 ≤ n ≤ 2^29` and every buffer of
`n` 4-byte units, the call returns and the count written to `numTokens` is the
number of unquoted commas plus one, an unquoted comma being a unit
`2C 00 00 00` preceded by an even number of units `22 00 00 00`. -/
theorem linesplit_count (src : List Nat) (n : Nat) (ts te : Int → Int)
    (hn : n ≤ 536870912) (hlen : src.length = 4 * n) :
    ∃ r, linesplit src (n : Int) ts te = .ok r ∧
      r.numTokens = ((unquotedCommas src n).length : Int) + 1 := by
  obtain ⟨r, hr, hp⟩ := linesplit_post src n ts te hn (by omega)
  exact ⟨r, hr, hp.count⟩

/-- C1, witness: the buffer `"a,b",c` (7 units). -/
theorem linesplit_count_witness :
    (7 : Nat) ≤ 536870912 ∧ (encode [34, 97, 44, 98, 34, 44, 99]).length = 4 * 7 ∧
    ∃ r, linesplit (encode [34, 97, 44, 98, 34, 44, 99]) ((7 : Nat) : Int)
        (fresh 0) (fresh 0) = .ok r ∧
      r.numTokens =
        ((unquotedCommas (encode [34, 97, 44, 98, 34, 44, 99]) 7).length : Int) + 1 :=
  ⟨by decide, by decide, linesplit_count _ 7 _ _ (by decide) (by decide)⟩

/-- C1, counterexample: a buffer of `2^29 + 1` zero units, length `2^29 + 1`.
The byte offset `c * 4` leaves the range of `int` in the pass `c = 2^29`, the
load `src[ptr+3]` is at offset `-2147483645`, and no count is written, while
the claim promises the count `1`. -/
theorem linesplit_count_fails_above_bound :
    zeroBuffer.length = 4 * 536870913 ∧
    linesplit zeroBuffer 536870913 (fresh 0) (fresh 0) = .error (.load (-2147483645)) ∧
    ¬ ∃ r, linesplit zeroBuffer 536870913 (fresh 0) (fresh 0) = .ok r ∧
      r.numTokens = ((unquotedCommas zeroBuffer 536870913).length : Int) + 1 := by
  refine ⟨by rw [length_zeroBuffer], zeroBuffer_fault _ _, ?_⟩
  rintro ⟨r, h, -⟩
  rw [zeroBuffer_fault] at h
  cases h

/-- C2 (amended). For every length `n` with `0 ≤ n ≤ 2^29` and every buffer of
`n` units, the call returns and the token ends other than the last are exactly
the indices of the unquoted commas in increasing order: `count - 1` is their
number, `tokenEnd[k]` for `k < count - 1` is the `(k+1)`-th of them, and no
index inside a span `[tokenStart[k], tokenEnd[k])` holds an unquoted comma. -/
theorem linesplit_ends_are_unquoted_commas (src : List Nat) (n : Nat) (ts te : Int → Int)
    (hn : n ≤ 536870912) (hlen : src.length = 4 * n) :
    ∃ r, linesplit src (n : Int) ts te = .ok r ∧
      r.numTokens - 1 = ((unquotedCommas src n).length : Int) ∧
      (unquotedCommas src n).Pairwise (· < ·) ∧
      (∀ k : Nat, (k : Int) < r.numTokens - 1 →
        ∃ j, (unquotedCommas src n)[k]? = some j ∧ r.tokenEnd k = (j : Int)) ∧
      (∀ k j : Nat, (k : Int) < r.numTokens → r.tokenStart k ≤ (j : Int) →
        (j : Int) < r.tokenEnd k → isUnquotedComma src j = false) := by
  obtain ⟨r, hr, hp⟩ := linesplit_post src n ts te hn (by omega)
  refine ⟨r, hr, by rw [hp.count]; omega, unquotedCommas_sorted src n, ?_, ?_⟩
  · intro k hk
    have hkU : k < (unquotedCommas src n).length := by rw [hp.count] at hk; omega
    refine ⟨(unquotedCommas src n)[k], List.getElem?_eq_getElem hkU, ?_⟩
    rw [hp.ends k (le_of_lt hkU), cell_endsOf_lt n hkU, cell_eq_getElem hkU]
  · intro k j hk h1 h2
    have hkU : k ≤ (unquotedCommas src n).length := by rw [hp.count] at hk; omega
    rw [hp.starts k hkU] at h1
    rw [hp.ends k hkU] at h2
    by_contra hj
    have hjn : j < n := by have := @cell_endsOf_le src n k hkU; omega
    have hmem : j ∈ unquotedCommas src n :=
      mem_unquotedCommas.2 ⟨hjn, by simpa using hj⟩
    exact no_delimiter_inside (unquotedCommas_sorted src n) n hkU hmem h1 h2

/-- C2, witness: the buffer `a,b,c` (5 units). -/
theorem linesplit_ends_are_unquoted_commas_witness :
    (5 : Nat) ≤ 536870912 ∧ (encode [97, 44, 98, 44, 99]).length = 4 * 5 ∧
    ∃ r, linesplit (encode [97, 44, 98, 44, 99]) ((5 : Nat) : Int) (fresh 0) (fresh 0) = .ok r ∧
      r.numTokens - 1 = ((unquotedCommas (encode [97, 44, 98, 44, 99]) 5).length : Int) ∧
      (unquotedCommas (encode [97, 44, 98, 44, 99]) 5).Pairwise (· < ·) ∧
      (∀ k : Nat, (k : Int) < r.numTokens - 1 →
        ∃ j, (unquotedCommas (encode [97, 44, 98, 44, 99]) 5)[k]? = some j ∧
          r.tokenEnd k = (j : Int)) ∧
      (∀ k j : Nat, (k : Int) < r.numTokens → r.tokenStart k ≤ (j : Int) →
        (j : Int) < r.tokenEnd k → isUnquotedComma (encode [97, 44, 98, 44, 99]) j = false) :=
  ⟨by decide, by decide,
    linesplit_ends_are_unquoted_commas _ 5 _ _ (by decide) (by decide)⟩

/-- C2, counterexample: a buffer of `2^29 + 1` zero units, length `2^29 + 1`.
The run faults in the pass `c = 2^29` (load at offset `-2147483645`), so no
token end is produced at all. -/
theorem linesplit_ends_fail_above_bound :
    zeroBuffer.length = 4 * 536870913 ∧
    linesplit zeroBuffer 536870913 (fresh 0) (fresh 0) = .error (.load (-2147483645)) ∧
    ¬ ∃ r, linesplit zeroBuffer 536870913 (fresh 0) (fresh 0) = .ok r ∧
      r.numTokens - 1 = ((unquotedCommas zeroBuffer 536870913).length : Int) ∧
      (∀ k : Nat, (k : Int) < r.numTokens - 1 →
        ∃ j, (unquotedCommas zeroBuffer 536870913)[k]? = some j ∧
          r.tokenEnd k = (j : Int)) := by
  refine ⟨by rw [length_zeroBuffer], zeroBuffer_fault _ _, ?_⟩
  rintro ⟨r, h, -⟩
  rw [zeroBuffer_fault] at h
  cases h

/-- C3 (amended). For every length `n` with `0 ≤ n ≤ 2^29` and every buffer of
`n` units, the call returns and the tokens are contiguous and ordered:
`tokenStart[0] = 0`, `tokenEnd[count-1] = n`, and
`tokenStart[i+1] = tokenEnd[i] + 1` for `0 ≤ i < count - 1`. -/
theorem linesplit_contiguous (src : List Nat) (n : Nat) (ts te : Int → Int)
    (hn : n ≤ 536870912) (hlen : src.length = 4 * n) :
    ∃ r, linesplit src (n : Int) ts te = .ok r ∧
      r.tokenStart 0 = 0 ∧ r.tokenEnd (r.numTokens - 1) = (n : Int) ∧
      ∀ i : Int, 0 ≤ i → i < r.numTokens - 1 → r.tokenStart (i + 1) = r.tokenEnd i + 1 := by
  obtain ⟨r, hr, hp⟩ := linesplit_post src n ts te hn (by omega)
  have hc : r.numTokens - 1 = ((unquotedCommas src n).length : Int) := by
    rw [hp.count]; omega
  refine ⟨r, hr, ?_, ?_, ?_⟩
  · have := hp.starts 0 (Nat.zero_le _)
    rw [cell_startsOf_zero] at this
    exact_mod_cast this
  · rw [hc, hp.ends _ (le_refl _), cell_endsOf_length]
  · intro i h0 hi
    obtain ⟨k, rfl⟩ := Int.eq_ofNat_of_zero_le h0
    have hkU : k < (unquotedCommas src n).length := by omega
    have h1 := hp.starts (k + 1) hkU
    rw [cell_startsOf_succ hkU] at h1
    have h2 := hp.ends k (le_of_lt hkU)
    rw [cell_endsOf_lt n hkU] at h2
    rw [h2]
    exact_mod_cast h1

/-- C3, witness: the buffer `"a,b",c` (7 units). -/
theorem linesplit_contiguous_witness :
    (7 : Nat) ≤ 536870912 ∧ (encode [34, 97, 44, 98, 34, 44, 99]).length = 4 * 7 ∧
    ∃ r, linesplit (encode [34, 97, 44, 98, 34, 44, 99]) ((7 : Nat) : Int)
        (fresh 0) (fresh 0) = .ok r ∧
      r.tokenStart 0 = 0 ∧ r.tokenEnd (r.numTokens - 1) = ((7 : Nat) : Int) ∧
      ∀ i : Int, 0 ≤ i → i < r.numTokens - 1 → r.tokenStart (i + 1) = r.tokenEnd i + 1 :=
  ⟨by decide, by decide, linesplit_contiguous _ 7 _ _ (by decide) (by decide)⟩

/-- C3, counterexample: a buffer of `2^29 + 1` zero units, length `2^29 + 1`.
The run faults in the pass `c = 2^29` (load at offset `-2147483645`) before
the final token is written, so `tokenEnd[count-1] = length` is not
established. -/
theorem linesplit_contiguous_fails_above_bound :
    zeroBuffer.length = 4 * 536870913 ∧
    linesplit zeroBuffer 536870913 (fresh 0) (fresh 0) = .error (.load (-2147483645)) ∧
    ¬ ∃ r, linesplit zeroBuffer 536870913 (fresh 0) (fresh 0) = .ok r ∧
      r.tokenStart 0 = 0 ∧ r.tokenEnd (r.numTokens - 1) = 536870913 := by
  refine ⟨by rw [length_zeroBuffer], zeroBuffer_fault _ _, ?_⟩
  rintro ⟨r, h, -⟩
  rw [zeroBuffer_fault] at h
  cases h

/-- C4 (amended). Round trip, for every length `n` with `0 ≤ n ≤ 2^29` and
every buffer of `n` units: the call returns, and the spans
`buffer[tokenStart[i] .. tokenEnd[i])` taken in token order, each but the last
followed by one comma unit, concatenate to the original buffer. -/
theorem linesplit_round_trip (src : List Nat) (n : Nat) (ts te : Int → Int)
    (hn : n ≤ 536870912) (hlen : src.length = 4 * n) :
    ∃ r, linesplit src (n : Int) ts te = .ok r ∧ rejoin src r.tokens = src := by
  obtain ⟨r, hr, hp⟩ := linesplit_post src n ts te hn (by omega)
  refine ⟨r, hr, ?_⟩
  rw [tokens_of_post hp]
  exact rejoin_tokensOf hlen

/-- C4, witness: the buffer `"a,b",c` (7 units). -/
theorem linesplit_round_trip_witness :
    (7 : Nat) ≤ 536870912 ∧ (encode [34, 97, 44, 98, 34, 44, 99]).length = 4 * 7 ∧
    ∃ r, linesplit (encode [34, 97, 44, 98, 34, 44, 99]) ((7 : Nat) : Int)
        (fresh 0) (fresh 0) = .ok r ∧
      rejoin (encode [34, 97, 44, 98, 34, 44, 99]) r.tokens =
        encode [34, 97, 44, 98, 34, 44, 99] :=
  ⟨by decide, by decide, linesplit_round_trip _ 7 _ _ (by decide) (by decide)⟩

/-- C4, counterexample: a buffer of `2^29 + 1` zero units, length `2^29 + 1`.
The run faults in the pass `c = 2^29` (load at offset `-2147483645`); there
are no tokens to rejoin. -/
theorem linesplit_round_trip_fails_above_bound :
    zeroBuffer.length = 4 * 536870913 ∧
    linesplit zeroBuffer 536870913 (fresh 0) (fresh 0) = .error (.load (-2147483645)) ∧
    ¬ ∃ r, linesplit zeroBuffer 536870913 (fresh 0) (fresh 0) = .ok r ∧
      rejoin zeroBuffer r.tokens = zeroBuffer := by
  refine ⟨by rw [length_zeroBuffer], zeroBuffer_fault _ _, ?_⟩
  rintro ⟨r, h, -⟩
  rw [zeroBuffer_fault] at h
  cases h

/-- C5 (amended). Under the sizing contract and for `0 ≤ n ≤ 2^29`: on every
buffer holding at least `n` units the call returns after exactly `n` loop
passes, loads only byte offsets in `[0, 4n)`, stores only at output indices in
`[0, n+1)` (so `count ≤ n + 1` and output arrays of capacity `n + 1` suffice),
and returns `0`. -/
theorem linesplit_total_in_bounds (src : List Nat) (n : Nat) (ts te : Int → Int)
    (hn : n ≤ 536870912) (hlen : 4 * n ≤ src.length) :
    ∃ r, linesplit src (n : Int) ts te = .ok r ∧
      r.trace.countP Event.isIter = n ∧
      (∀ off, Event.load off ∈ r.trace → 0 ≤ off ∧ off < 4 * (n : Int)) ∧
      (∀ idx v, Event.storeStart idx v ∈ r.trace → 0 ≤ idx ∧ idx < (n : Int) + 1) ∧
      (∀ idx v, Event.storeEnd idx v ∈ r.trace → 0 ≤ idx ∧ idx < (n : Int) + 1) ∧
      r.numTokens ≤ (n : Int) + 1 ∧ r.ret = 0 := by
  obtain ⟨r, hr, hp⟩ := linesplit_post src n ts te hn hlen
  have hU := length_unquotedCommas_le src n
  refine ⟨r, hr, hp.passes, ?_, ?_, ?_, by rw [hp.count]; omega, hp.ret⟩
  · intro off h
    exact hp.events _ h
  · intro idx v h
    have := hp.events _ h
    simp only [Event.within] at this
    omega
  · intro idx v h
    have := hp.events _ h
    simp only [Event.within] at this
    omega

/-- C5, witness: the buffer `,` followed by one spare unit (the buffer may be
longer than `length`). -/
theorem linesplit_total_in_bounds_witness :
    (1 : Nat) ≤ 536870912 ∧ 4 * 1 ≤ (encode [44, 97]).length ∧
    ∃ r, linesplit (encode [44, 97]) ((1 : Nat) : Int) (fresh 0) (fresh 0) = .ok r ∧
      r.trace.countP Event.isIter = 1 ∧
      (∀ off, Event.load off ∈ r.trace → 0 ≤ off ∧ off < 4 * ((1 : Nat) : Int)) ∧
      (∀ idx v, Event.storeStart idx v ∈ r.trace → 0 ≤ idx ∧ idx < ((1 : Nat) : Int) + 1) ∧
      (∀ idx v, Event.storeEnd idx v ∈ r.trace → 0 ≤ idx ∧ idx < ((1 : Nat) : Int) + 1) ∧
      r.numTokens ≤ ((1 : Nat) : Int) + 1 ∧ r.ret = 0 :=
  ⟨by decide, by decide, linesplit_total_in_bounds _ 1 _ _ (by decide) (by decide)⟩

/-- C5, counterexample: with length `2^29 + 1`, on a buffer holding that many
(zero) units, the run does not return `0`: in the pass `c = 2^29` the offset
`ptr + 3` has wrapped to `-2147483645` and the load is outside the buffer. -/
theorem linesplit_out_of_bounds_above_bound :
    4 * 536870913 ≤ zeroBuffer.length ∧
    linesplit zeroBuffer 536870913 (fresh 0) (fresh 0) = .error (.load (-2147483645)) ∧
    ¬ ∃ r, linesplit zeroBuffer 536870913 (fresh 0) (fresh 0) = .ok r ∧ r.ret = 0 := by
  refine ⟨by rw [length_zeroBuffer], zeroBuffer_fault _ _, ?_⟩
  rintro ⟨r, h, -⟩
  rw [zeroBuffer_fault] at h
  cases h

/-- C6. A code unit with a non-zero upper byte (byte 1, 2 or 3) is never
treated as a comma or a quote, whatever its low byte: for every buffer of `n`
units, of any length, and every index `i` holding such a unit, the call has the
same outcome, with the same tokens and the same count, as on the buffer with
unit `i` replaced by U+0061; and for `n ≤ 2^29` both calls return. -/
theorem linesplit_ignores_wide_units (src : List Nat) (n i : Nat) (b0 b1 b2 b3 : Nat)
    (ts te : Int → Int) (hlen : src.length = 4 * n) (hi : i < n)
    (hu : unitAt src i = [b0, b1, b2, b3]) (hw : b1 ≠ 0 ∨ b2 ≠ 0 ∨ b3 ≠ 0) :
    (linesplit src (n : Int) ts te).map (fun r => (r.tokens, r.numTokens)) =
      (linesplit (setUnit src i 0x61 0 0 0) (n : Int) ts te).map
        (fun r => (r.tokens, r.numTokens)) ∧
    (n ≤ 536870912 →
      ∃ r r2, linesplit src (n : Int) ts te = .ok r ∧
        linesplit (setUnit src i 0x61 0 0 0) (n : Int) ts te = .ok r2 ∧
        r.tokens = r2.tokens ∧ r.numTokens = r2.numTokens) := by
  have hU := unquotedCommas_setUnit (by omega : 4 * (i + 1) ≤ src.length) hu hw n
  have hboth : n ≤ 536870912 →
      ∃ r r2, linesplit src (n : Int) ts te = .ok r ∧
        linesplit (setUnit src i 0x61 0 0 0) (n : Int) ts te = .ok r2 ∧
        r.tokens = r2.tokens ∧ r.numTokens = r2.numTokens := by
    intro hn
    obtain ⟨r, hr, hp⟩ := linesplit_post src n ts te hn (by omega)
    obtain ⟨r2, hr2, hp2⟩ := linesplit_post (setUnit src i 0x61 0 0 0) n ts te hn
      (by rw [length_setUnit]; omega)
    refine ⟨r, r2, hr, hr2, ?_, ?_⟩
    · rw [tokens_of_post hp, tokens_of_post hp2, hU]
    · rw [hp.count, hp2.count, hU]
  refine ⟨?_, hboth⟩
  by_cases hn : n ≤ 536870912
  · obtain ⟨r, r2, hr, hr2, h1, h2⟩ := hboth hn
    rw [hr, hr2]
    simp only [Except.map, h1, h2]
  · rw [linesplit_overflow src n ts te (by omega) (by omega),
      linesplit_overflow (setUnit src i 0x61 0 0 0) n ts te (by omega)
        (by rw [length_setUnit]; omega)]

/-- C6, witness: `a`, U+012C, `,`, U+2022 with `i = 1`, the unit `2C 01 00 00`. -/
theorem linesplit_ignores_wide_units_witness :
    (encode [97, 0x12c, 44, 0x2022]).length = 4 * 4 ∧ 1 < 4 ∧
    unitAt (encode [97, 0x12c, 44, 0x2022]) 1 = [0x2c, 1, 0, 0] ∧
    ((1 : Nat) ≠ 0 ∨ (0 : Nat) ≠ 0 ∨ (0 : Nat) ≠ 0) ∧
    ((linesplit (encode [97, 0x12c, 44, 0x2022]) ((4 : Nat) : Int) (fresh 0) (fresh 0)).map
        (fun r => (r.tokens, r.numTokens)) =
      (linesplit (setUnit (encode [97, 0x12c, 44, 0x2022]) 1 0x61 0 0 0) ((4 : Nat) : Int)
        (fresh 0) (fresh 0)).map (fun r => (r.tokens, r.numTokens)) ∧
    (4 ≤ 536870912 →
      ∃ r r2, linesplit (encode [97, 0x12c, 44, 0x2022]) ((4 : Nat) : Int)
          (fresh 0) (fresh 0) = .ok r ∧
        linesplit (setUnit (encode [97, 0x12c, 44, 0x2022]) 1 0x61 0 0 0) ((4 : Nat) : Int)
          (fresh 0) (fresh 0) = .ok r2 ∧
        r.tokens = r2.tokens ∧ r.numTokens = r2.numTokens)) :=
  ⟨by decide, by decide, by decide, by decide,
    linesplit_ignores_wide_units _ 4 1 0x2c 1 0 0 _ _ (by decide) (by decide) (by decide)
      (by decide)⟩

/-- C7 (amended). For every buffer of `n ≤ 2^29` units whose number of quote
units is odd, the call returns `0`, the final token ends at `n`, and the final
token starts at or before the last quote unit `q`; no comma after `q` is a
delimiter. -/
theorem linesplit_unterminated_quote (src : List Nat) (n : Nat) (ts te : Int → Int)
    (hn : n ≤ 536870912) (hlen : src.length = 4 * n) (hodd : quotesBefore src n % 2 = 1) :
    ∃ r q, linesplit src (n : Int) ts te = .ok r ∧ r.ret = 0 ∧
      r.tokenEnd (r.numTokens - 1) = (n : Int) ∧
      q < n ∧ isQuote src q = true ∧ (∀ j, q < j → j < n → isQuote src j = false) ∧
      r.tokenStart (r.numTokens - 1) ≤ (q : Int) ∧
      (∀ j, q < j → j < n → isUnquotedComma src j = false) := by
  obtain ⟨r, hr, hp⟩ := linesplit_post src n ts te hn (by omega)
  have hpos : 0 < quotesBefore src n := by omega
  obtain ⟨q, hqn, hqq, hlast⟩ := exists_last_quote n hpos
  have hc : r.numTokens - 1 = ((unquotedCommas src n).length : Int) := by
    rw [hp.count]; omega
  have hafter : ∀ j, q < j → j < n → isUnquotedComma src j = false :=
    fun j h1 h2 => no_unquoted_comma_after_last_quote hodd hlast h1 h2
  refine ⟨r, q, hr, hp.ret, ?_, hqn, hqq, hlast, ?_, hafter⟩
  · rw [hc, hp.ends _ (le_refl _), cell_endsOf_length]
  · rw [hc, hp.starts _ (le_refl _)]
    cases hU : (unquotedCommas src n).length with
    | zero => rw [cell_startsOf_zero]; omega
    | succ k =>
      have hk : k < (unquotedCommas src n).length := by omega
      rw [cell_startsOf_succ hk, cell_eq_getElem hk]
      have hmem : (unquotedCommas src n)[k] ∈ unquotedCommas src n := List.getElem_mem _
      obtain ⟨hun, huc⟩ := mem_unquotedCommas.1 hmem
      have hle : (unquotedCommas src n)[k] ≤ q := by
        by_contra hgt
        have := hafter _ (by omega) hun
        rw [huc] at this
        cases this
      have hne : (unquotedCommas src n)[k] ≠ q := by
        intro e
        rw [e] at huc
        have hk2 := isComma_of_isQuote hqq
        simp [isUnquotedComma, hk2] at huc
      omega

/-- C7, witness: the buffer `"a,b` (4 units), one quote. -/
theorem linesplit_unterminated_quote_witness :
    (4 : Nat) ≤ 536870912 ∧ (encode [34, 97, 44, 98]).length = 4 * 4 ∧
    quotesBefore (encode [34, 97, 44, 98]) 4 % 2 = 1 ∧
    ∃ r q, linesplit (encode [34, 97, 44, 98]) ((4 : Nat) : Int) (fresh 0) (fresh 0) = .ok r ∧
      r.ret = 0 ∧ r.tokenEnd (r.numTokens - 1) = ((4 : Nat) : Int) ∧
      q < 4 ∧ isQuote (encode [34, 97, 44, 98]) q = true ∧
      (∀ j, q < j → j < 4 → isQuote (encode [34, 97, 44, 98]) j = false) ∧
      r.tokenStart (r.numTokens - 1) ≤ (q : Int) ∧
      (∀ j, q < j → j < 4 → isUnquotedComma (encode [34, 97, 44, 98]) j = false) :=
  ⟨by decide, by decide, by decide,
    linesplit_unterminated_quote _ 4 _ _ (by decide) (by decide) (by decide)⟩

/-- C7, counterexample: one quote unit followed by `2^29` zero units (an odd
number of quotes, length `2^29 + 1`). The run does not return `0`: it faults
in the pass `c = 2^29` (load at offset `-2147483645`). -/
theorem linesplit_unterminated_quote_fails_above_bound :
    quoteBuffer.length = 4 * 536870913 ∧ quotesBefore quoteBuffer 536870913 % 2 = 1 ∧
    linesplit quoteBuffer 536870913 (fresh 0) (fresh 0) = .error (.load (-2147483645)) ∧
    ¬ ∃ r, linesplit quoteBuffer 536870913 (fresh 0) (fresh 0) = .ok r ∧ r.ret = 0 ∧
      r.tokenEnd (r.numTokens - 1) = 536870913 := by
  refine ⟨by rw [length_quoteBuffer], by rw [quotesBefore_quoteBuffer],
    quoteBuffer_fault _ _, ?_⟩
  rintro ⟨r, h, -⟩
  rw [quoteBuffer_fault] at h
  cases h

/-- C8. Idempotence on extracted fields: for every buffer of `n` units and every
token `(s, e)` the call emits for it, the call on the standalone sub-buffer of
units `[s, e)` (length `e - s`) returns exactly one token, `(0, e - s)`, with
count `1`. -/
theorem linesplit_field_is_one_token (src : List Nat) (n : Nat) (ts te ts2 te2 : Int → Int)
    (s e : Int) (hlen : src.length = 4 * n) (ht : (s, e) ∈ emitted src (n : Int) ts te) :
    ∃ r2, linesplit (span src s e) (e - s) ts2 te2 = .ok r2 ∧
      r2.tokens = [(0, e - s)] ∧ r2.numTokens = 1 := by
  unfold emitted at ht
  cases hr : linesplit src (n : Int) ts te with
  | error f => rw [hr] at ht; cases ht
  | ok r =>
    rw [hr] at ht
    have hn := bound_of_ok (by omega) hr
    obtain ⟨r1, hr1, hp⟩ := linesplit_post src n ts te hn (by omega)
    rw [hr] at hr1
    cases hr1
    have hU := length_unquotedCommas_le src n
    simp only [Result.tokens, List.mem_map, List.mem_range, Prod.mk.injEq] at ht
    obtain ⟨k, hk, hs, he⟩ := ht
    have hkU : k ≤ (unquotedCommas src n).length := by rw [hp.count] at hk; omega
    rw [hp.starts k hkU] at hs
    rw [hp.ends k hkU] at he
    have hle := start_le_end src n hkU
    have hend := @cell_endsOf_le src n k hkU
    have hfield := unquotedCommas_field src n hkU
    unfold cell at hs he hle hend
    subst hs he
    rw [span_ofNat]
    have hsub : ((((endsOf (unquotedCommas src n) n).getD k 0 : Nat) : Int) -
        (((startsOf (unquotedCommas src n)).getD k 0 : Nat) : Int)) =
        (((endsOf (unquotedCommas src n) n).getD k 0 -
          (startsOf (unquotedCommas src n)).getD k 0 : Nat) : Int) := by omega
    rw [hsub]
    obtain ⟨r2, hr2, hp2⟩ := linesplit_post
      ((src.drop (4 * (startsOf (unquotedCommas src n)).getD k 0)).take
        (4 * ((endsOf (unquotedCommas src n) n).getD k 0 -
          (startsOf (unquotedCommas src n)).getD k 0)))
      ((endsOf (unquotedCommas src n) n).getD k 0 -
        (startsOf (unquotedCommas src n)).getD k 0) ts2 te2 (by omega)
      (by rw [List.length_take, List.length_drop]; omega)
    refine ⟨r2, hr2, ?_, ?_⟩
    · rw [tokens_of_post hp2, hfield]
      simp [tokensOf, startsOf, endsOf]
    · rw [hp2.count, hfield]
      rfl

/-- C8, witness: the field `"a,b"` (units 0..5) of the buffer `"a,b",c`. -/
theorem linesplit_field_is_one_token_witness :
    (encode [34, 97, 44, 98, 34, 44, 99]).length = 4 * 7 ∧
    ((0 : Int), (5 : Int)) ∈
      emitted (encode [34, 97, 44, 98, 34, 44, 99]) ((7 : Nat) : Int) (fresh 0) (fresh 0) ∧
    ∃ r2, linesplit (span (encode [34, 97, 44, 98, 34, 44, 99]) 0 5) (5 - 0)
        (fresh 0) (fresh 0) = .ok r2 ∧
      r2.tokens = [(0, 5 - 0)] ∧ r2.numTokens = 1 :=
  ⟨by decide, by decide,
    linesplit_field_is_one_token _ 7 (fresh 0) (fresh 0) _ _ 0 5 (by decide) (by decide)⟩

/-- C9. For length `0` and any buffer contents the call emits exactly one
token, `tokenStart[0] = 0` and `tokenEnd[0] = 0`, writes the count `1` and
returns `0`. -/
theorem linesplit_empty (src : List Nat) (ts te : Int → Int) :
    ∃ r, linesplit src 0 ts te = .ok r ∧ r.tokens = [(0, 0)] ∧
      r.tokenStart 0 = 0 ∧ r.tokenEnd 0 = 0 ∧ r.numTokens = 1 ∧ r.ret = 0 := by
  refine ⟨finish (init ts te), rfl, ?_, ?_, ?_, ?_, ?_⟩
  · simp [Result.tokens, finish, init, wrap32, List.range_succ]
  · simp [finish, init]
  · simp [finish, init]
  · simp [finish, init, wrap32]
  · rfl

/-- C10 (amended). Empty fields are emitted, never merged or dropped: for every
`n` with `0 ≤ n ≤ 2^29`, on the buffer of `n` comma units the call returns with
count `n + 1` and the tokens `(k, k)` for `k = 0..n`; no buffer of `n` units
yields a larger count. -/
theorem linesplit_all_commas (n : Nat) (ts te : Int → Int) (hn : n ≤ 536870912) :
    ∃ r, linesplit (commas n) (n : Int) ts te = .ok r ∧ r.numTokens = (n : Int) + 1 ∧
      (∀ k : Nat, k ≤ n → r.tokenStart k = (k : Int) ∧ r.tokenEnd k = (k : Int)) ∧
      (∀ (src : List Nat) (ts2 te2 : Int → Int) (r2 : Result), src.length = 4 * n →
        linesplit src (n : Int) ts2 te2 = .ok r2 → r2.numTokens ≤ r.numTokens) := by
  obtain ⟨r, hr, hp⟩ := linesplit_post (commas n) n ts te hn (by rw [length_commas])
  have hcnt : r.numTokens = (n : Int) + 1 := by
    rw [hp.count, unquotedCommas_commas, List.length_range]
  refine ⟨r, hr, hcnt, ?_, ?_⟩
  · intro k hk
    have hkU : k ≤ (unquotedCommas (commas n) n).length := by
      rw [unquotedCommas_commas, List.length_range]; exact hk
    rw [hp.starts k hkU, hp.ends k hkU, unquotedCommas_commas]
    constructor
    · cases k with
      | zero => exact cell_startsOf_zero _
      | succ k =>
        have hk2 : k < (List.range n).length := by rw [List.length_range]; omega
        rw [cell_startsOf_succ hk2, cell_range (by omega)]
        push_cast; rfl
    · by_cases hlt : k < n
      · have hk2 : k < (List.range n).length := by rw [List.length_range]; omega
        rw [cell_endsOf_lt n hk2, cell_range hlt]
      · have e : k = (List.range n).length := by rw [List.length_range]; omega
        have e2 : k = n := by omega
        rw [e, cell_endsOf_length, List.length_range]
  · intro src ts2 te2 r2 hlen h2
    obtain ⟨r3, hr3, hp3⟩ := linesplit_post src n ts2 te2 hn (by omega)
    rw [h2] at hr3
    cases hr3
    have := length_unquotedCommas_le src n
    rw [hp3.count, hcnt]
    omega

/-- C10, witness: the buffer `,` (`n = 1`). -/
theorem linesplit_all_commas_witness :
    (1 : Nat) ≤ 536870912 ∧
    ∃ r, linesplit (commas 1) ((1 : Nat) : Int) (fresh 0) (fresh 0) = .ok r ∧
      r.numTokens = ((1 : Nat) : Int) + 1 ∧
      (∀ k : Nat, k ≤ 1 → r.tokenStart k = (k : Int) ∧ r.tokenEnd k = (k : Int)) ∧
      (∀ (src : List Nat) (ts2 te2 : Int → Int) (r2 : Result), src.length = 4 * 1 →
        linesplit src ((1 : Nat) : Int) ts2 te2 = .ok r2 → r2.numTokens ≤ r.numTokens) :=
  ⟨by decide, linesplit_all_commas 1 _ _ (by decide)⟩

/-- C10, counterexample: on the buffer of `2^29 + 1` comma units the call does
not yield count `2^29 + 2`: it faults in the pass `c = 2^29` (load at offset
`-2147483645`). -/
theorem linesplit_all_commas_fails_above_bound :
    (commas 536870913).length = 4 * 536870913 ∧
    linesplit (commas 536870913) 536870913 (fresh 0) (fresh 0) =
      .error (.load (-2147483645)) ∧
    ¬ ∃ r, linesplit (commas 536870913) 536870913 (fresh 0) (fresh 0) = .ok r ∧
      r.numTokens = 536870913 + 1 := by
  refine ⟨length_commas _, commas_fault _ _, ?_⟩
  rintro ⟨r, h, -⟩
  rw [commas_fault] at h
  cases h

/-- C11 (amended). Two adjacent quote units are a net no-op on tokenization
while the longer buffer stays within `2^29` units: for every buffer `B` of `n`
units with `n + 2 ≤ 2^29` and every position `p` with `0 ≤ p ≤ n`, the call on
`B` and the call on `B` with two quote units inserted at position `p` both
return, with the same count and the same tokens up to the shift: each end `e`
becomes `e + 2` if `e ≥ p`, each start `s` becomes `s + 2` if `s > p`. -/
theorem linesplit_quote_pair (src : List Nat) (n p : Nat) (ts te ts2 te2 : Int → Int)
    (hn : n + 2 ≤ 536870912) (hlen : src.length = 4 * n) (hp : p ≤ n) :
    ∃ r r2, linesplit src (n : Int) ts te = .ok r ∧
      linesplit (insertQuotes src p) ((n + 2 : Nat) : Int) ts2 te2 = .ok r2 ∧
      r2.numTokens = r.numTokens ∧
      ∀ k : Nat, (k : Int) < r.numTokens →
        r2.tokenStart k =
          (if (p : Int) < r.tokenStart k then r.tokenStart k + 2 else r.tokenStart k) ∧
        r2.tokenEnd k =
          (if (p : Int) ≤ r.tokenEnd k then r.tokenEnd k + 2 else r.tokenEnd k) := by
  obtain ⟨r, hr, hpo⟩ := linesplit_post src n ts te (by omega) (by omega)
  have hlenN := length_insertQuotes (by omega : 4 * p ≤ src.length)
  obtain ⟨r2, hr2, hpo2⟩ := linesplit_post (insertQuotes src p) (n + 2) ts2 te2 hn
    (by rw [hlenN]; omega)
  have hU := unquotedCommas_insertQuotes hlen hp
  refine ⟨r, r2, hr, hr2, ?_, ?_⟩
  · rw [hpo2.count, hpo.count, hU, List.length_map]
  · intro k hk
    have hkU : k ≤ (unquotedCommas src n).length := by rw [hpo.count] at hk; omega
    have hkU2 : k ≤ (unquotedCommas (insertQuotes src p) (n + 2)).length := by
      rw [hU, List.length_map]; exact hkU
    rw [hpo2.starts k hkU2, hpo2.ends k hkU2, hpo.starts k hkU, hpo.ends k hkU, hU]
    exact ⟨cell_startsOf_shift _ p hkU, cell_endsOf_shift _ hp hkU⟩

/-- C11, witness: two quotes inserted at position `2` of `a,b,c`. -/
theorem linesplit_quote_pair_witness :
    5 + 2 ≤ 536870912 ∧ (encode [97, 44, 98, 44, 99]).length = 4 * 5 ∧ 2 ≤ 5 ∧
    ∃ r r2, linesplit (encode [97, 44, 98, 44, 99]) ((5 : Nat) : Int) (fresh 0) (fresh 0) =
        .ok r ∧
      linesplit (insertQuotes (encode [97, 44, 98, 44, 99]) 2) ((5 + 2 : Nat) : Int)
        (fresh 0) (fresh 0) = .ok r2 ∧
      r2.numTokens = r.numTokens ∧
      ∀ k : Nat, (k : Int) < r.numTokens →
        r2.tokenStart k =
          (if ((2 : Nat) : Int) < r.tokenStart k then r.tokenStart k + 2
            else r.tokenStart k) ∧
        r2.tokenEnd k =
          (if ((2 : Nat) : Int) ≤ r.tokenEnd k then r.tokenEnd k + 2 else r.tokenEnd k) :=
  ⟨by decide, by decide, by decide,
    linesplit_quote_pair _ 5 2 _ _ _ _ (by decide) (by decide) (by decide)⟩

/-- C11, counterexample: `B` is `2^29 - 1` zero units and `p = 0`. The call on
`B` returns with count `1`; the call on `B` with the two quotes inserted
(`2^29 + 1` units) faults in the pass `c = 2^29` and yields no count. -/
theorem linesplit_quote_pair_fails_above_bound :
    (zeroUnits 536870911).length = 4 * 536870911 ∧
    (∃ r, linesplit (zeroUnits 536870911) 536870911 (fresh 0) (fresh 0) = .ok r ∧
      r.numTokens = 1) ∧
    linesplit (insertQuotes (zeroUnits 536870911) 0) 536870913 (fresh 0) (fresh 0) =
      .error (.load (-2147483645)) ∧
    ¬ ∃ r r2, linesplit (zeroUnits 536870911) 536870911 (fresh 0) (fresh 0) = .ok r ∧
      linesplit (insertQuotes (zeroUnits 536870911) 0) 536870913 (fresh 0) (fresh 0) =
        .ok r2 ∧
      r2.numTokens = r.numTokens := by
  have hl := length_zeroUnits 536870911
  have hlN : (insertQuotes (zeroUnits 536870911) 0).length = 4 * 536870911 + 8 := by
    rw [length_insertQuotes (by omega), hl]
  have hf : linesplit (insertQuotes (zeroUnits 536870911) 0) 536870913 (fresh 0) (fresh 0) =
      .error (.load (-2147483645)) := by
    have h := linesplit_overflow (insertQuotes (zeroUnits 536870911) 0) 536870913
      (fresh 0) (fresh 0) (by omega) (by rw [hlN]; omega)
    simpa using h
  refine ⟨hl, ?_, hf, ?_⟩
  · obtain ⟨r, hr, hpo⟩ := linesplit_post (zeroUnits 536870911) 536870911 (fresh 0) (fresh 0)
      (by omega) (by rw [hl])
    refine ⟨r, by simpa using hr, ?_⟩
    rw [hpo.count, unquotedCommas_zeroUnits]
    rfl
  · rintro ⟨r, r2, -, h2, -⟩
    rw [hf] at h2
    cases h2

/-- C12 (amended). For every length `src_n < 0` the call is not rejected: no
check is made, the loop body is never entered and no byte is loaded; the single
token `(0, 0)` and the count `1` are written and the call returns `0`. -/
theorem linesplit_negative_length (src : List Nat) (src_n : Int) (ts te : Int → Int)
    (hneg : src_n < 0) :
    ∃ r, linesplit src src_n ts te = .ok r ∧ r.ret = 0 ∧ r.numTokens = 1 ∧
      r.tokens = [(0, 0)] ∧
      r.trace = [.storeStart 0 0, .storeEnd 0 0, .storeNum 1] := by
  have h0 : src_n.toNat = 0 := by omega
  have hc : ¬ (init ts te).c < src_n := by simp only [init]; omega
  refine ⟨finish (init ts te), ?_, rfl, ?_, ?_, ?_⟩
  · simp only [linesplit, h0, iterate, hc, if_false]
  · simp [finish, init, wrap32]
  · simp [Result.tokens, finish, init, wrap32, List.range_succ]
  · simp [finish, init, wrap32]

/-- C12, witness: length `-3`. -/
theorem linesplit_negative_length_witness :
    (-3 : Int) < 0 ∧
    ∃ r, linesplit (encode [97, 44, 98]) (-3) (fresh 0) (fresh 0) = .ok r ∧ r.ret = 0 ∧
      r.numTokens = 1 ∧ r.tokens = [(0, 0)] ∧
      r.trace = [.storeStart 0 0, .storeEnd 0 0, .storeNum 1] :=
  ⟨by decide, linesplit_negative_length _ (-3) _ _ (by decide)⟩

/-- C12, counterexample: on the buffer `,` with length `-1` the call returns `0`
(success) with the token `(0, 0)` and the count `1`, instead of reporting a
failure. -/
theorem linesplit_accepts_negative_length :
    (linesplit (encode [44]) (-1) (fresh 0) (fresh 0)).toOption.map
      (fun r => (r.ret, r.numTokens, r.tokens)) = some (0, 1, [(0, 0)]) := by
  decide

/-- C13 (amended). The routine makes no capacity check and has no failure
return. For every buffer of `n ≤ 2^29` units and output storage of `cap`
entries: the call with unlimited storage returns `0` with some count; when
`cap` is at least that count the call returns the same result; when `cap` is
smaller (as for `n` unquoted commas and `cap < n + 1`) the call does not fail
cleanly: it performs the store `tokenStart[cap]`, one past the end of the
storage, and returns nothing to the caller. -/
theorem linesplit_capacity_unchecked (src : List Nat) (n cap : Nat) (ts te : Int → Int)
    (hn : n ≤ 536870912) (hlen : src.length = 4 * n) :
    ∃ r, linesplit src (n : Int) ts te = .ok r ∧ r.ret = 0 ∧
      (r.numTokens ≤ (cap : Int) → linesplitIn cap src (n : Int) ts te = .ok r) ∧
      ((cap : Int) < r.numTokens →
        linesplitIn cap src (n : Int) ts te = .error (.store (cap : Int))) := by
  obtain ⟨r, hr, hp⟩ := linesplit_post src n ts te hn (by omega)
  obtain ⟨h1, h2⟩ := linesplitIn_spec cap src n ts te hn (by omega)
  refine ⟨r, hr, hp.ret, ?_, ?_⟩
  · intro hroom
    rw [hp.count] at hroom
    rw [h1 (by omega), hr]
  · intro hfull
    rw [hp.count] at hfull
    exact h2 (by omega)

/-- C13, witness: two commas and storage for two entries. -/
theorem linesplit_capacity_unchecked_witness :
    (2 : Nat) ≤ 536870912 ∧ (commas 2).length = 4 * 2 ∧
    ∃ r, linesplit (commas 2) ((2 : Nat) : Int) (fresh 0) (fresh 0) = .ok r ∧ r.ret = 0 ∧
      (r.numTokens ≤ ((2 : Nat) : Int) →
        linesplitIn 2 (commas 2) ((2 : Nat) : Int) (fresh 0) (fresh 0) = .ok r) ∧
      (((2 : Nat) : Int) < r.numTokens →
        linesplitIn 2 (commas 2) ((2 : Nat) : Int) (fresh 0) (fresh 0) =
          .error (.store ((2 : Nat) : Int))) :=
  ⟨by decide, by decide, linesplit_capacity_unchecked _ 2 2 _ _ (by decide) (by decide)⟩

/-- C13, counterexample: the buffer `,` (one unquoted comma, two tokens) with
storage for one entry. The call does not report a failure: after the token
`(0, 0)` the final token is stored at index `1`, outside the storage. -/
theorem linesplit_stores_past_capacity :
    (linesplit (commas 1) 1 (fresh 0) (fresh 0)).toOption.map (fun r => r.numTokens) = some 2 ∧
    linesplitIn 1 (commas 1) 1 (fresh 0) (fresh 0) = .error (.store 1) :=
  ⟨by decide, by rfl⟩

/-- C14 (amended). Frame, for every length `n` with `0 ≤ n ≤ 2^29` and every
buffer of `n` units: the call returns, its stores to `tokenStart` are at the
indices `0, 1, .., count-1` in this order, each once, and so are its stores to
`tokenEnd`; it stores to `numTokens` once, the value `count`; the number of
pairs written is `count`; cells at indices `≥ count` keep their prior values.
The buffer is only loaded from (no event of a run is a store to it). -/
theorem linesplit_frame (src : List Nat) (n : Nat) (ts te : Int → Int)
    (hn : n ≤ 536870912) (hlen : src.length = 4 * n) :
    ∃ r, linesplit src (n : Int) ts te = .ok r ∧
      r.trace.filterMap Event.startIdx = firstIndices r.numTokens.toNat ∧
      r.trace.filterMap Event.endIdx = firstIndices r.numTokens.toNat ∧
      r.trace.filterMap Event.numVal = [r.numTokens] ∧
      ((r.trace.filterMap Event.startIdx).length : Int) = r.numTokens ∧
      (∀ j : Int, r.numTokens ≤ j → r.tokenStart j = ts j ∧ r.tokenEnd j = te j) := by
  obtain ⟨s, hr, hinv, hst⟩ := linesplit_run src n ts te hn (by omega)
  have hp := post_of_inv hinv hn
  have hU := length_unquotedCommas_le src n
  have hU2 : (unquotedCommas src n).length < 2147483647 := by omega
  have hcnt : s.tokenCnt = ((unquotedCommas src n).length : Int) := hinv.cnt
  have hnum : (finish s).numTokens.toNat = (unquotedCommas src n).length + 1 := by
    rw [hp.count]; omega
  have h1 : (finish s).trace.filterMap Event.startIdx =
      firstIndices ((unquotedCommas src n).length + 1) := by
    rw [finish_trace, List.filterMap_append, hst.starts, firstIndices_succ, hcnt]
    simp [Event.startIdx]
  have h2 : (finish s).trace.filterMap Event.endIdx =
      firstIndices ((unquotedCommas src n).length + 1) := by
    rw [finish_trace, List.filterMap_append, hst.ends, firstIndices_succ, hcnt]
    simp [Event.endIdx]
  refine ⟨finish s, hr, ?_, ?_, ?_, ?_, ?_⟩
  · rw [hnum]; exact h1
  · rw [hnum]; exact h2
  · rw [finish_trace, List.filterMap_append, hst.nums]
    simp [Event.numVal, finish]
  · rw [h1, hp.count]
    simp [firstIndices]
  · intro j hj
    rw [hp.count] at hj
    exact ⟨hp.frameStart j (by omega), hp.frameEnd j (by omega)⟩

/-- C14, witness: the buffer `a,b,c` (5 units). -/
theorem linesplit_frame_witness :
    (5 : Nat) ≤ 536870912 ∧ (encode [97, 44, 98, 44, 99]).length = 4 * 5 ∧
    ∃ r, linesplit (encode [97, 44, 98, 44, 99]) ((5 : Nat) : Int) (fresh 7) (fresh 9) = .ok r ∧
      r.trace.filterMap Event.startIdx = firstIndices r.numTokens.toNat ∧
      r.trace.filterMap Event.endIdx = firstIndices r.numTokens.toNat ∧
      r.trace.filterMap Event.numVal = [r.numTokens] ∧
      ((r.trace.filterMap Event.startIdx).length : Int) = r.numTokens ∧
      (∀ j : Int, r.numTokens ≤ j → r.tokenStart j = fresh 7 j ∧ r.tokenEnd j = fresh 9 j) :=
  ⟨by decide, by decide, linesplit_frame _ 5 _ _ (by decide) (by decide)⟩

/-- C14, counterexample: a buffer of `2^29 + 1` zero units, length `2^29 + 1`.
The run faults in the pass `c = 2^29` (load at offset `-2147483645`); the final
pair and the count are never stored. -/
theorem linesplit_frame_fails_above_bound :
    zeroBuffer.length = 4 * 536870913 ∧
    linesplit zeroBuffer 536870913 (fresh 0) (fresh 0) = .error (.load (-2147483645)) ∧
    ¬ ∃ r, linesplit zeroBuffer 536870913 (fresh 0) (fresh 0) = .ok r ∧
      r.trace.filterMap Event.numVal = [r.numTokens] := by
  refine ⟨by rw [length_zeroBuffer], zeroBuffer_fault _ _, ?_⟩
  rintro ⟨r, h, -⟩
  rw [zeroBuffer_fault] at h
  cases h

/-- C15. Scan-state invariant: for any buffer and `0 ≤ i ≤ length`, whenever the
loop has processed the first `i` units (which it does for every `i ≤ 2^29` that
the buffer holds), `inQuotes` is `0` or `1` and equals the parity of the number
of quote units among units `0..i-1`, `tokenCnt` is the number of unquoted commas
among them, and `lastTokenStart` is one past the index of the last of these
(`0` if there is none). -/
theorem scan_state_invariant (src : List Nat) (n i : Nat) (ts te : Int → Int) (hi : i ≤ n) :
    (i ≤ 536870912 → 4 * i ≤ src.length →
      ∃ s, iterate src (n : Int) i (init ts te) = .ok s) ∧
    ∀ s, iterate src (n : Int) i (init ts te) = .ok s →
      s.c = (i : Int) ∧ (s.inQuotes = 0 ∨ s.inQuotes = 1) ∧
      s.inQuotes = ((quotesBefore src i % 2 : Nat) : Int) ∧
      s.tokenCnt = ((unquotedCommas src i).length : Int) ∧
      s.lastTokenStart = lastStart (unquotedCommas src i) := by
  constructor
  · intro hb hlen
    obtain ⟨s, hit, -⟩ := @iterate_inv src (n : Int) ts te i 0 (init ts te)
      (inv_init src ts te) (by push_cast; omega) (by omega) (by omega)
    exact ⟨s, hit⟩
  · intro s hs
    rcases @iterate_progress src n ts te i 0 (init ts te) (inv_init src ts te)
      (by omega) (by omega) with ⟨s2, hit, hinv⟩ | ⟨off, hit⟩
    · rw [hs] at hit
      injection hit with e
      subst e
      rw [Nat.zero_add] at hinv
      have hq := hinv.inq
      refine ⟨hinv.c, ?_, hq, hinv.cnt, ?_⟩
      · rcases Nat.mod_two_eq_zero_or_one (quotesBefore src i) with h | h
        · left; rw [hq, h]; rfl
        · right; rw [hq, h]; rfl
      · rw [hinv.last, cell_startsOf_length]
    · rw [hs] at hit
      cases hit

/-- C15, witness: the buffer `"a,b",c` after `6` of its `7` units. -/
theorem scan_state_invariant_witness :
    6 ≤ 7 ∧
    ((6 ≤ 536870912 → 4 * 6 ≤ (encode [34, 97, 44, 98, 34, 44, 99]).length →
      ∃ s, iterate (encode [34, 97, 44, 98, 34, 44, 99]) ((7 : Nat) : Int) 6
        (init (fresh 0) (fresh 0)) = .ok s) ∧
    ∀ s, iterate (encode [34, 97, 44, 98, 34, 44, 99]) ((7 : Nat) : Int) 6
        (init (fresh 0) (fresh 0)) = .ok s →
      s.c = ((6 : Nat) : Int) ∧ (s.inQuotes = 0 ∨ s.inQuotes = 1) ∧
      s.inQuotes = ((quotesBefore (encode [34, 97, 44, 98, 34, 44, 99]) 6 % 2 : Nat) : Int) ∧
      s.tokenCnt = ((unquotedCommas (encode [34, 97, 44, 98, 34, 44, 99]) 6).length : Int) ∧
      s.lastTokenStart = lastStart (unquotedCommas (encode [34, 97, 44, 98, 34, 44, 99]) 6)) :=
  ⟨by decide, scan_state_invariant _ 7 6 _ _ (by decide)⟩

/-- C16. Every emitted token is a well-formed range inside the buffer: for every
length `n ≥ 0`, every buffer of `n` units and every `k < count` of a call that
returns (as it does whenever `n ≤ 2^29`),
`0 ≤ tokenStart[k] ≤ tokenEnd[k] ≤ n`, and token starts are strictly increasing
in `k`. -/
theorem tokens_well_formed (src : List Nat) (n : Nat) (ts te : Int → Int)
    (hlen : src.length = 4 * n) :
    (n ≤ 536870912 → ∃ r, linesplit src (n : Int) ts te = .ok r) ∧
    ∀ r, linesplit src (n : Int) ts te = .ok r → ∀ k : Nat, (k : Int) < r.numTokens →
      0 ≤ r.tokenStart k ∧ r.tokenStart k ≤ r.tokenEnd k ∧ r.tokenEnd k ≤ (n : Int) ∧
      ∀ k2 : Nat, k < k2 → (k2 : Int) < r.numTokens → r.tokenStart k < r.tokenStart k2 := by
  constructor
  · intro hn
    obtain ⟨r, hr, -⟩ := linesplit_post src n ts te hn (by omega)
    exact ⟨r, hr⟩
  · intro r hr k hk
    have hn := bound_of_ok (by omega) hr
    obtain ⟨r1, hr1, hp⟩ := linesplit_post src n ts te hn (by omega)
    rw [hr] at hr1
    injection hr1 with e
    subst e
    have hkU : k ≤ (unquotedCommas src n).length := by rw [hp.count] at hk; omega
    have hle := start_le_end src n hkU
    have hend := @cell_endsOf_le src n k hkU
    rw [hp.starts k hkU, hp.ends k hkU]
    refine ⟨by unfold cell; omega, hle, hend, ?_⟩
    intro k2 hlt hk2
    have hk2U : k2 ≤ (unquotedCommas src n).length := by rw [hp.count] at hk2; omega
    rw [hp.starts k2 hk2U]
    have h1 : k < (startsOf (unquotedCommas src n)).length := by
      rw [length_startsOf]; omega
    have h2 : k2 < (startsOf (unquotedCommas src n)).length := by
      rw [length_startsOf]; omega
    rw [cell_eq_getElem h1, cell_eq_getElem h2]
    have := (List.pairwise_iff_getElem.1 (startsOf_sorted (unquotedCommas_sorted src n)))
      k k2 h1 h2 hlt
    exact_mod_cast this

/-- C16, witness: the buffer `,a,,"b,` (7 units). -/
theorem tokens_well_formed_witness :
    (encode [44, 97, 44, 44, 34, 98, 44]).length = 4 * 7 ∧
    ((7 ≤ 536870912 → ∃ r, linesplit (encode [44, 97, 44, 44, 34, 98, 44]) ((7 : Nat) : Int)
      (fresh 0) (fresh 0) = .ok r) ∧
    ∀ r, linesplit (encode [44, 97, 44, 44, 34, 98, 44]) ((7 : Nat) : Int)
        (fresh 0) (fresh 0) = .ok r → ∀ k : Nat, (k : Int) < r.numTokens →
      0 ≤ r.tokenStart k ∧ r.tokenStart k ≤ r.tokenEnd k ∧ r.tokenEnd k ≤ ((7 : Nat) : Int) ∧
      ∀ k2 : Nat, k < k2 → (k2 : Int) < r.numTokens → r.tokenStart k < r.tokenStart k2) :=
  ⟨by decide, tokens_well_formed _ 7 _ _ (by decide)⟩

/-- C17 (amended). Compositionality across an unquoted comma, while the joined
buffer stays within `2^29` units: for all buffers `A` of `a` units and `B` of
`b` units with `a + b + 1 ≤ 2^29`, where `A` holds an even number of quote
units, the calls on `A`, on `B` and on `A ++ [U+002C] ++ B` all return, and the
last yields `count(A) + count(B)` tokens: the tokens of `A` followed by the
tokens of `B` with every start and end shifted by `a + 1`. -/
theorem linesplit_compositional (A B : List Nat) (a b : Nat)
    (tsA teA tsB teB ts te : Int → Int) (hn : a + b + 1 ≤ 536870912)
    (hA : A.length = 4 * a) (hB : B.length = 4 * b) (hpar : quotesBefore A a % 2 = 0) :
    ∃ rA rB r, linesplit A (a : Int) tsA teA = .ok rA ∧
      linesplit B (b : Int) tsB teB = .ok rB ∧
      linesplit (joinComma A B) ((a + b + 1 : Nat) : Int) ts te = .ok r ∧
      r.numTokens = rA.numTokens + rB.numTokens ∧
      r.tokens = rA.tokens ++
        rB.tokens.map fun t => (t.1 + ((a : Int) + 1), t.2 + ((a : Int) + 1)) := by
  obtain ⟨rA, hrA, hpA⟩ := linesplit_post A a tsA teA (by omega) (by omega)
  obtain ⟨rB, hrB, hpB⟩ := linesplit_post B b tsB teB (by omega) (by omega)
  obtain ⟨r, hr, hp⟩ := linesplit_post (joinComma A B) (a + b + 1) ts te hn
    (by rw [length_joinComma]; omega)
  have hU := (@scan_joinComma A B a hA hpar b).2
  have e : a + 1 + b = a + b + 1 := by omega
  rw [e] at hU
  refine ⟨rA, rB, r, hrA, hrB, hr, ?_, ?_⟩
  · rw [hp.count, hpA.count, hpB.count, hU]
    simp only [List.length_append, List.length_map, List.length_singleton]
    push_cast; omega
  · rw [tokens_of_post hp, tokens_of_post hpA, tokens_of_post hpB, hU]
    exact tokensOf_join _ _ a b

/-- C17, witness: `A` is `"a,b"` (5 units, two quotes) and `B` is `c,d`. -/
theorem linesplit_compositional_witness :
    5 + 3 + 1 ≤ 536870912 ∧ (encode [34, 97, 44, 98, 34]).length = 4 * 5 ∧
    (encode [99, 44, 100]).length = 4 * 3 ∧
    quotesBefore (encode [34, 97, 44, 98, 34]) 5 % 2 = 0 ∧
    ∃ rA rB r, linesplit (encode [34, 97, 44, 98, 34]) ((5 : Nat) : Int) (fresh 0) (fresh 0) =
        .ok rA ∧
      linesplit (encode [99, 44, 100]) ((3 : Nat) : Int) (fresh 0) (fresh 0) = .ok rB ∧
      linesplit (joinComma (encode [34, 97, 44, 98, 34]) (encode [99, 44, 100]))
        ((5 + 3 + 1 : Nat) : Int) (fresh 0) (fresh 0) = .ok r ∧
      r.numTokens = rA.numTokens + rB.numTokens ∧
      r.tokens = rA.tokens ++
        rB.tokens.map fun t => (t.1 + (((5 : Nat) : Int) + 1), t.2 + (((5 : Nat) : Int) + 1)) :=
  ⟨by decide, by decide, by decide, by decide,
    linesplit_compositional _ _ 5 3 _ _ _ _ _ _ (by decide) (by decide) (by decide)
      (by decide)⟩

/-- C17, counterexample: `A` is empty (no quotes) and `B` is `2^29` zero units.
The calls on `A` and on `B` return, each with count `1`; the call on
`A ++ [U+002C] ++ B` (`2^29 + 1` units) faults in the pass `c = 2^29` and
yields no tokens. -/
theorem linesplit_compositional_fails_above_bound :
    (zeroUnits 536870912).length = 4 * 536870912 ∧ quotesBefore [] 0 % 2 = 0 ∧
    (∃ rA, linesplit [] 0 (fresh 0) (fresh 0) = .ok rA ∧ rA.numTokens = 1) ∧
    (∃ rB, linesplit (zeroUnits 536870912) 536870912 (fresh 0) (fresh 0) = .ok rB ∧
      rB.numTokens = 1) ∧
    linesplit (joinComma [] (zeroUnits 536870912)) 536870913 (fresh 0) (fresh 0) =
      .error (.load (-2147483645)) ∧
    ¬ ∃ rA rB r, linesplit [] 0 (fresh 0) (fresh 0) = .ok rA ∧
      linesplit (zeroUnits 536870912) 536870912 (fresh 0) (fresh 0) = .ok rB ∧
      linesplit (joinComma [] (zeroUnits 536870912)) 536870913 (fresh 0) (fresh 0) = .ok r ∧
      r.numTokens = rA.numTokens + rB.numTokens := by
  have hl := length_zeroUnits 536870912
  have hlJ : (joinComma [] (zeroUnits 536870912)).length = 4 * 536870912 + 4 := by
    rw [length_joinComma, hl]; rfl
  have hf : linesplit (joinComma [] (zeroUnits 536870912)) 536870913 (fresh 0) (fresh 0) =
      .error (.load (-2147483645)) := by
    have h := linesplit_overflow (joinComma [] (zeroUnits 536870912)) 536870913
      (fresh 0) (fresh 0) (by omega) (by rw [hlJ]; omega)
    simpa using h
  refine ⟨hl, by decide, ?_, ?_, hf, ?_⟩
  · obtain ⟨r, hr, hpo⟩ := linesplit_post [] 0 (fresh 0) (fresh 0) (by omega) (by simp)
    refine ⟨r, by simpa using hr, ?_⟩
    rw [hpo.count]
    rfl
  · obtain ⟨r, hr, hpo⟩ := linesplit_post (zeroUnits 536870912) 536870912 (fresh 0) (fresh 0)
      (by omega) (by rw [hl])
    refine ⟨r, by simpa using hr, ?_⟩
    rw [hpo.count, unquotedCommas_zeroUnits]
    rfl
  · rintro ⟨rA, rB, r, -, -, h3, -⟩
    rw [hf] at h3
    cases h3

/-- C18. Byte-offset arithmetic is exact up to `2^29` units: for
`0 ≤ c < src_n ≤ 2^29` the offsets `ptr = c * 4` and `ptr + 3` computed on
32-bit `int`s equal their mathematical values and are at most `2^31 - 1`; for
`src_n = 2^29 + 1`, at `c = 2^29`, `c * 4 = 2^31` no longer fits and wraps to
`-2^31`, and the pass faults at its first load. -/
theorem byte_offsets_exact_up_to_bound (src_n c : Int) (h0 : 0 ≤ c) (hc : c < src_n)
    (hn : src_n ≤ 536870912) :
    (wrap32 (c * 4) = c * 4 ∧ wrap32 (wrap32 (c * 4) + 3) = c * 4 + 3 ∧
      c * 4 + 3 ≤ 2147483647) ∧
    ((536870912 : Int) < 536870913 ∧ (536870912 : Int) * 4 = 2147483648 ∧
      (2147483647 : Int) < 536870912 * 4 ∧
      wrap32 (536870912 * 4) = 2147483648 - 4294967296 ∧
      ∀ (src : List Nat) (s : State), s.c = 536870912 →
        body src s = .error (.load (-2147483645))) := by
  have e1 : wrap32 (c * 4) = c * 4 := wrap32_of_range (by omega) (by omega)
  refine ⟨⟨e1, ?_, by omega⟩, by decide, by decide, by decide, by decide, body_overflow⟩
  rw [e1]
  exact wrap32_of_range (by omega) (by omega)

/-- C18, witness: the last pass of a scan of `2^29` units, `c = 2^29 - 1`. -/
theorem byte_offsets_exact_up_to_bound_witness :
    (0 : Int) ≤ 536870911 ∧ (536870911 : Int) < 536870912 ∧ (536870912 : Int) ≤ 536870912 ∧
    ((wrap32 (536870911 * 4) = 536870911 * 4 ∧
      wrap32 (wrap32 (536870911 * 4) + 3) = 536870911 * 4 + 3 ∧
      (536870911 : Int) * 4 + 3 ≤ 2147483647) ∧
    ((536870912 : Int) < 536870913 ∧ (536870912 : Int) * 4 = 2147483648 ∧
      (2147483647 : Int) < 536870912 * 4 ∧
      wrap32 (536870912 * 4) = 2147483648 - 4294967296 ∧
      ∀ (src : List Nat) (s : State), s.c = 536870912 →
        body src s = .error (.load (-2147483645)))) :=
  ⟨by decide, by decide, by decide,
    byte_offsets_exact_up_to_bound 536870912 536870911 (by decide) (by decide) (by decide)⟩

end LineSplit
